import Mathlib

/-!
Shallow embedding of `src/patience_sort.h` (namespace `Patience`): the
distribution pass (`Installer::find_deck`, `Installer::get_deck_pointer`,
`Installer::allocate_new_deck`, the loop bodies of `sort_generic` and
`patience_sort`) and the merge tournament (`ContiniousDeck::merge_decks`
and `SparceDeck::merge_decks`, which share one loop structure).

A deck (pile) is a `List α`, appended at the back; `back` of a deck is
`List.getLast?`.  The deck storage (`std::deque<std::deque<T>>` or
`std::deque<std::list<T>>`) is a `List (List α)`.  Comparators are
`α → α → Bool` as in the C++ template parameter.
-/

namespace Patience

variable {α : Type}

/-- Strict weak order on a boolean comparator: irreflexive, transitive, and
negatively transitive (this presentation is equivalent to the usual
irreflexive + transitive + transitivity-of-incomparability one). -/
def SWO (cmp : α → α → Bool) : Prop :=
  (∀ a, cmp a a = false) ∧
  (∀ a b c, cmp a b = true → cmp b c = true → cmp a c = true) ∧
  (∀ a b c, cmp a b = false → cmp b c = false → cmp a c = false)

/-- The comparison `cmp(decks[i]->back(), val)` made by `Installer::find_deck`.
On a C++ `std::deque`, `back()` on an empty deck is undefined; every deck the
algorithm ever searches is non-empty (proved below), so the `none` branch is
unreachable in every reachable state. -/
def qualifies (cmp : α → α → Bool) (decks : List (List α)) (i : Nat) (val : α) : Bool :=
  match (decks.getD i []).getLast? with
  | some x => cmp x val
  | none => false

/-- Embedding of `Installer::find_deck`.  Iterators are indices into `decks`;
`b`, `e` are the `begin`/`end` of the searched range.  A valid C++ iterator
range always has `b ≤ e`, so the first guard `end == begin` is rendered as
`e ≤ b`. -/
def find_deck (cmp : α → α → Bool) (decks : List (List α)) (val : α) (b e : Nat) : Nat :=
  if e ≤ b then b
  else if e = b + 1 then (if qualifies cmp decks b val then b else e)
  else
    if qualifies cmp decks (b + (e - b) / 2) val then
      find_deck cmp decks val b (b + (e - b) / 2)
    else
      find_deck cmp decks val (b + (e - b) / 2) e
termination_by e - b
decreasing_by
  all_goals omega

/-- Embedding of `Installer::get_deck_pointer` combined with
`Installer::allocate_new_deck`: returns the index of the target deck together
with the (possibly grown) storage.  `allocate_new_deck` does
`storage.resize(storage.size() + 1)`, appending one default-constructed
(empty) deck at the end, and returns `storage.end() - 1`. -/
def get_deck_pointer (cmp : α → α → Bool) (decks : List (List α)) (val : α) :
    Nat × List (List α) :=
  let res := find_deck cmp decks val 0 decks.length
  if res ≠ decks.length then (res, decks) else (decks.length, decks ++ [[]])

/-- One iteration of the distribution loops
`deck.get_deck_pointer(*it)->emplace_back(std::move(*it))` (`sort_generic`)
and `target->splice(target->end(), list, tmp)` (`patience_sort`): the element
is appended at the back of the deck returned by `get_deck_pointer`. -/
def insert_elem (cmp : α → α → Bool) (decks : List (List α)) (val : α) :
    List (List α) :=
  let p := get_deck_pointer cmp decks val
  p.2.set p.1 (p.2.getD p.1 [] ++ [val])

/-- The whole distribution pass: the single left-to-right loop over the input
in `sort_generic` / `patience_sort`, starting from empty deck storage. -/
def distribute (cmp : α → α → Bool) (xs : List α) : List (List α) :=
  xs.foldl (insert_elem cmp) []

/-- Embedding of the two-way merge used by both variants:
`std::list::merge(other, cmp)` for the linked variant and
`std::inplace_merge(first, mid, last, cmp)` for the contiguous one.  Both
take the next element from the first run unless the second run's head is
strictly smaller (`cmp` true), which makes the merge stable. -/
def list_merge (cmp : α → α → Bool) : List α → List α → List α
  | [], ys => ys
  | x :: xs, [] => x :: xs
  | x :: xs, y :: ys =>
    if cmp y x then y :: list_merge cmp (x :: xs) ys
    else x :: list_merge cmp xs (y :: ys)

/-- Embedding of the loop `for (int i = points.size() - 1; i > 0; i -= 2)`
inside `merge_decks`: `i` is the C++ `int` loop counter, `acc` is the
`new_points`/`new_storage` deque built with `emplace_front`, and the boolean
is `left_unmerged`.  Out-of-range reads cannot occur inside the loop
(`1 ≤ i < size`); they are rendered with `getD`. -/
def merge_loop (cmp : α → α → Bool) (ds : List (List α)) (i : Int)
    (acc : List (List α)) (left_unmerged : Bool) : List (List α) × Bool :=
  if i > 0 then
    merge_loop cmp ds (i - 2)
      (list_merge cmp (ds.getD (i - 1).toNat []) (ds.getD i.toNat []) :: acc)
      (decide (i ≠ 1))
  else (acc, left_unmerged)
termination_by i.toNat
decreasing_by
  omega

/-- One round of `merge_decks`: run the loop, then
`if (left_unmerged) new_points.emplace_front(points[0])`.  When the storage is
empty, that trailing read `points[0]` (resp. `storage[0]`) indexes an empty
`std::deque`, which is out of range; this is modelled as `none`. -/
def merge_round (cmp : α → α → Bool) (ds : List (List α)) :
    Option (List (List α)) :=
  match merge_loop cmp ds ((ds.length : Int) - 1) [] true with
  | (acc, true) => ds.head?.map (fun d => d :: acc)
  | (acc, false) => some acc

/-- Reference form of one merge round: adjacent pairs are merged; with an odd
count the first deck passes through unmerged (the C++ loop walks from the
end, so the leftover is `points[0]`). -/
def pair_merge (cmp : α → α → Bool) : List (List α) → List (List α)
  | d1 :: d2 :: rest => list_merge cmp d1 d2 :: pair_merge cmp rest
  | ds => ds

theorem take_succ_getD (ds : List (List α)) (n : Nat) (h : n < ds.length) :
    ds.take (n + 1) = ds.take n ++ [ds.getD n []] := by
  rw [List.take_succ, List.getElem?_eq_getElem h, List.getD_eq_getElem ds [] h]
  rfl

theorem getD_drop_one (ds : List (List α)) (j : Nat) :
    (ds.drop 1).getD j [] = ds.getD (j + 1) [] := by
  simp [List.getD_eq_getElem?_getD, List.getElem?_drop, Nat.add_comm]

theorem merge_loop_pos (cmp : α → α → Bool) (ds : List (List α)) (i : Int)
    (acc : List (List α)) (left : Bool) (h : i > 0) :
    merge_loop cmp ds i acc left
      = merge_loop cmp ds (i - 2)
          (list_merge cmp (ds.getD (i - 1).toNat []) (ds.getD i.toNat []) :: acc)
          (decide (i ≠ 1)) := by
  rw [merge_loop]
  simp [h]

theorem merge_loop_nonpos (cmp : α → α → Bool) (ds : List (List α)) (i : Int)
    (acc : List (List α)) (left : Bool) (h : ¬i > 0) :
    merge_loop cmp ds i acc left = (acc, left) := by
  rw [merge_loop]
  simp [h]

theorem pair_merge_append_two (cmp : α → α → Bool) :
    ∀ (l : List (List α)), l.length % 2 = 0 → ∀ a b,
      pair_merge cmp (l ++ [a, b]) = pair_merge cmp l ++ [list_merge cmp a b]
  | [], _, a, b => by simp [pair_merge]
  | [x], h, a, b => by simp at h
  | x :: y :: rest, h, a, b => by
    have hr : rest.length % 2 = 0 := by simp at h; omega
    simp [pair_merge, pair_merge_append_two cmp rest hr a b]

theorem pair_merge_length (cmp : α → α → Bool) :
    ∀ ds : List (List α), (pair_merge cmp ds).length = (ds.length + 1) / 2
  | [] => by simp [pair_merge]
  | [d] => by simp [pair_merge]
  | d1 :: d2 :: rest => by
    simp [pair_merge, pair_merge_length cmp rest]
    omega

theorem merge_loop_odd (cmp : α → α → Bool) (ds : List (List α)) :
    ∀ (m : Nat) (acc : List (List α)) (left : Bool), 2 * m + 1 < ds.length →
      merge_loop cmp ds ((2 * m + 1 : Nat) : Int) acc left
        = (pair_merge cmp (ds.take (2 * m + 2)) ++ acc, false) := by
  intro m
  induction m with
  | zero =>
    intro acc left h
    rw [merge_loop_pos cmp ds _ _ _ (by omega)]
    rw [merge_loop_nonpos cmp ds _ _ _ (by omega)]
    have h0 : (0 : Nat) < ds.length := by omega
    have h1 : (1 : Nat) < ds.length := by omega
    have ht : ds.take 2 = [ds.getD 0 [], ds.getD 1 []] := by
      rw [take_succ_getD ds 1 h1, take_succ_getD ds 0 h0]
      simp
    have e1 : (((2 * 0 + 1 : Nat) : Int) - 1).toNat = 0 := by omega
    have e2 : ((2 * 0 + 1 : Nat) : Int).toNat = 1 := by omega
    have e3 : decide (((2 * 0 + 1 : Nat) : Int) ≠ 1) = false := by
      simp
    rw [e1, e2, e3]
    simp [ht, pair_merge]
  | succ m ih =>
    intro acc left h
    rw [merge_loop_pos cmp ds _ _ _ (by omega)]
    have e1 : (((2 * (m + 1) + 1 : Nat) : Int) - 1).toNat = 2 * m + 2 := by omega
    have e2 : ((2 * (m + 1) + 1 : Nat) : Int).toNat = 2 * m + 3 := by omega
    have e3 : ((2 * (m + 1) + 1 : Nat) : Int) - 2 = ((2 * m + 1 : Nat) : Int) := by omega
    rw [e1, e2, e3, ih _ _ (by omega)]
    have h2 : 2 * m + 2 < ds.length := by omega
    have h3 : 2 * m + 3 < ds.length := by omega
    have hlen : (ds.take (2 * m + 2)).length % 2 = 0 := by
      rw [List.length_take]
      omega
    rw [show 2 * (m + 1) + 2 = (2 * m + 3) + 1 by omega,
        take_succ_getD ds (2 * m + 3) h3,
        show 2 * m + 3 = (2 * m + 2) + 1 by omega,
        take_succ_getD ds (2 * m + 2) h2, List.append_assoc]
    rw [show [ds.getD (2 * m + 2) []] ++ [ds.getD (2 * m + 2 + 1) []]
          = [ds.getD (2 * m + 2) [], ds.getD (2 * m + 2 + 1) []] from rfl]
    rw [pair_merge_append_two cmp _ hlen]
    simp

theorem merge_loop_even (cmp : α → α → Bool) (ds : List (List α)) :
    ∀ (m : Nat) (acc : List (List α)) (left : Bool), 2 * m < ds.length →
      merge_loop cmp ds ((2 * m : Nat) : Int) acc left
        = (pair_merge cmp ((ds.drop 1).take (2 * m)) ++ acc,
           if m = 0 then left else true) := by
  intro m
  induction m with
  | zero =>
    intro acc left h
    rw [merge_loop_nonpos cmp ds _ _ _ (by omega)]
    simp [pair_merge]
  | succ m ih =>
    intro acc left h
    rw [merge_loop_pos cmp ds _ _ _ (by omega)]
    have e1 : (((2 * (m + 1) : Nat) : Int) - 1).toNat = 2 * m + 1 := by omega
    have e2 : ((2 * (m + 1) : Nat) : Int).toNat = 2 * m + 2 := by omega
    have e3 : ((2 * (m + 1) : Nat) : Int) - 2 = ((2 * m : Nat) : Int) := by omega
    rw [e1, e2, e3, ih _ _ (by omega)]
    have hd1 : 2 * m < (ds.drop 1).length := by
      rw [List.length_drop]
      omega
    have hd2 : 2 * m + 1 < (ds.drop 1).length := by
      rw [List.length_drop]
      omega
    have hlen : ((ds.drop 1).take (2 * m)).length % 2 = 0 := by
      rw [List.length_take]
      omega
    rw [show 2 * (m + 1) = (2 * m + 1) + 1 by omega,
        take_succ_getD _ (2 * m + 1) hd2,
        take_succ_getD _ (2 * m) hd1, List.append_assoc]
    rw [show [(ds.drop 1).getD (2 * m) []] ++ [(ds.drop 1).getD (2 * m + 1) []]
          = [(ds.drop 1).getD (2 * m) [], (ds.drop 1).getD (2 * m + 1) []] from rfl]
    rw [pair_merge_append_two cmp _ hlen]
    rw [getD_drop_one, getD_drop_one]
    have : decide (((2 * (m + 1) : Nat) : Int) ≠ 1) = true := by
      simp
      omega
    simp [this]
    omega

theorem merge_round_nil (cmp : α → α → Bool) :
    merge_round cmp ([] : List (List α)) = none := by
  have hl := merge_loop_nonpos cmp ([] : List (List α))
    ((([] : List (List α)).length : Int) - 1) [] true (by simp)
  rw [merge_round, hl]
  rfl

theorem merge_round_cons (cmp : α → α → Bool) (d : List α) (rest : List (List α)) :
    merge_round cmp (d :: rest)
      = some (if rest.length % 2 = 0 then d :: pair_merge cmp rest
              else pair_merge cmp (d :: rest)) := by
  rcases Nat.even_or_odd rest.length with ⟨m, hm⟩ | ⟨m, hm⟩
  · -- storage size is odd: loop leaves the first deck unmerged
    have e0 : ((d :: rest).length : Int) - 1 = ((2 * m : Nat) : Int) := by
      simp
      omega
    rw [merge_round, e0, merge_loop_even cmp _ m [] true (by simp; omega)]
    rcases Nat.eq_zero_or_pos m with hm0 | hm0
    · subst hm0
      have : rest = [] := List.length_eq_zero.mp (by omega)
      subst this
      simp [pair_merge]
    · rw [if_neg (by omega)]
      have hdr : (d :: rest).drop 1 = rest := by simp
      rw [hdr, List.take_of_length_le (by omega)]
      rw [if_pos (by omega)]
      simp
  · -- storage size is even: everything pairs off, left_unmerged ends false
    have e0 : ((d :: rest).length : Int) - 1 = ((2 * m + 1 : Nat) : Int) := by
      simp
      omega
    rw [merge_round, e0, merge_loop_odd cmp _ m [] true (by simp; omega)]
    have ht : (d :: rest).take (2 * m + 2) = d :: rest :=
      List.take_of_length_le (by simp; omega)
    rw [ht, if_neg (by omega)]
    simp

theorem merge_round_some_length (cmp : α → α → Bool) (ds r : List (List α))
    (h : merge_round cmp ds = some r) : r.length = (ds.length + 1) / 2 := by
  cases ds with
  | nil => rw [merge_round_nil] at h; exact absurd h (by simp)
  | cons d rest =>
    rw [merge_round_cons] at h
    by_cases h' : rest.length % 2 = 0
    · rw [if_pos h'] at h
      have hr := Option.some.inj h
      subst hr
      simp [pair_merge_length]
      omega
    · rw [if_neg h'] at h
      have hr := Option.some.inj h
      subst hr
      exact pair_merge_length cmp (d :: rest)

/-- Embedding of `merge_decks` (`ContiniousDeck::merge_decks` and
`SparceDeck::merge_decks` share this structure): return when a single deck
remains, otherwise run one round and recurse.  The rounds for the contiguous
variant act on the `points` ranges; since `std::inplace_merge` rewrites the
two adjacent spans with the stable merge of their contents, the run contents
evolve exactly as the linked variant's decks do. -/
def merge_decks (cmp : α → α → Bool) (ds : List (List α)) :
    Option (List (List α)) :=
  if ds.length = 1 then some ds
  else
    match h : merge_round cmp ds with
    | none => none
    | some r => merge_decks cmp r
termination_by ds.length
decreasing_by
  have hlen := merge_round_some_length cmp ds r h
  have : ds ≠ [] := by
    intro hnil
    rw [hnil, merge_round_nil] at h
    exact absurd h (by simp)
  have : ds.length ≠ 0 := by simpa using this
  omega

/-- Embedding of the linked-variant driver `patience_sort(list, cmp)`:
distribute by splicing, merge, then `list = std::move(storage[0])`. -/
def patience_sort (cmp : α → α → Bool) (xs : List α) : Option (List α) :=
  (merge_decks cmp (distribute cmp xs)).bind List.head?

/-- Embedding of the contiguous-variant driver
`sort_generic<RandomIt, ContiniousDeck>`: distribute, write the decks back
contiguously in collection order (`move_back`), then merge adjacent spans.
The storage contents after `produce_output` are the concatenation of the
remaining runs. -/
def patience_sort_cont (cmp : α → α → Bool) (xs : List α) : Option (List α) :=
  (merge_decks cmp (distribute cmp xs)).map List.flatten

/-- Extrema of the decks in collection order: each deck's `back()`.  Every
reachable deck is non-empty, so this lists one extremum per deck. -/
def extrema (decks : List (List α)) : List α :=
  decks.filterMap List.getLast?

theorem SWO.irrefl {cmp : α → α → Bool} (h : SWO cmp) (a : α) : cmp a a = false :=
  h.1 a

theorem SWO.trans {cmp : α → α → Bool} (h : SWO cmp) {a b c : α}
    (h1 : cmp a b = true) (h2 : cmp b c = true) : cmp a c = true :=
  h.2.1 a b c h1 h2

theorem SWO.negtrans {cmp : α → α → Bool} (h : SWO cmp) {a b c : α}
    (h1 : cmp a b = false) (h2 : cmp b c = false) : cmp a c = false :=
  h.2.2 a b c h1 h2

theorem SWO.asymm {cmp : α → α → Bool} (h : SWO cmp) {a b : α}
    (h1 : cmp a b = true) : cmp b a = false := by
  cases h2 : cmp b a
  · rfl
  · have := h.trans h1 h2
    rw [h.irrefl a] at this
    exact absurd this (by simp)

theorem SWO.le_lt_trans {cmp : α → α → Bool} (h : SWO cmp) {a b c : α}
    (h1 : cmp b a = false) (h2 : cmp b c = true) : cmp a c = true := by
  cases h3 : cmp a c
  · have := h.negtrans h1 h3
    rw [this] at h2
    exact absurd h2 (by simp)
  · rfl

theorem SWO.lt_le_trans {cmp : α → α → Bool} (h : SWO cmp) {a b c : α}
    (h1 : cmp a b = true) (h2 : cmp c b = false) : cmp a c = true := by
  cases h3 : cmp a c
  · have := h.negtrans h3 h2
    rw [this] at h1
    exact absurd h1 (by simp)
  · rfl

theorem find_deck_range (cmp : α → α → Bool) (decks : List (List α)) (val : α) :
    ∀ (n b e : Nat), e - b ≤ n → b ≤ e →
      b ≤ find_deck cmp decks val b e ∧ find_deck cmp decks val b e ≤ e := by
  intro n
  induction n with
  | zero =>
    intro b e hn hbe
    have he : e = b := by omega
    subst he
    rw [find_deck]
    simp
  | succ n ih =>
    intro b e hn hbe
    rw [find_deck]
    by_cases h1 : e ≤ b
    · simp [h1]
      exact hbe
    · rw [if_neg h1]
      by_cases h2 : e = b + 1
      · rw [if_pos h2]
        by_cases h3 : qualifies cmp decks b val <;> simp [h3] <;> omega
      · rw [if_neg h2]
        by_cases h3 : qualifies cmp decks (b + (e - b) / 2) val
        · rw [if_pos h3]
          have := ih b (b + (e - b) / 2) (by omega) (by omega)
          omega
        · rw [if_neg h3]
          have := ih (b + (e - b) / 2) e (by omega) (by omega)
          omega

theorem find_deck_lt_qualifies (cmp : α → α → Bool) (decks : List (List α)) (val : α) :
    ∀ (n b e : Nat), e - b ≤ n → b ≤ e → find_deck cmp decks val b e < e →
      qualifies cmp decks (find_deck cmp decks val b e) val = true := by
  intro n
  induction n with
  | zero =>
    intro b e hn hbe hlt
    have he : e = b := by omega
    subst he
    rw [find_deck] at hlt ⊢
    simp at hlt
  | succ n ih =>
    intro b e hn hbe hlt
    rw [find_deck] at hlt ⊢
    by_cases h1 : e ≤ b
    · rw [if_pos h1] at hlt
      omega
    · rw [if_neg h1] at hlt ⊢
      by_cases h2 : e = b + 1
      · rw [if_pos h2] at hlt ⊢
        by_cases h3 : qualifies cmp decks b val
        · simpa [h3] using h3
        · rw [if_neg h3] at hlt
          omega
      · rw [if_neg h2] at hlt ⊢
        by_cases h3 : qualifies cmp decks (b + (e - b) / 2) val
        · rw [if_pos h3] at hlt ⊢
          have hrange := find_deck_range cmp decks val n b (b + (e - b) / 2)
            (by omega) (by omega)
          by_cases h4 : find_deck cmp decks val b (b + (e - b) / 2) < b + (e - b) / 2
          · exact ih b (b + (e - b) / 2) (by omega) (by omega) h4
          · have : find_deck cmp decks val b (b + (e - b) / 2) = b + (e - b) / 2 := by
              omega
            rw [this]
            exact h3
        · rw [if_neg h3] at hlt ⊢
          exact ih (b + (e - b) / 2) e (by omega) (by omega) hlt

theorem find_deck_eq_end (cmp : α → α → Bool) (decks : List (List α)) (val : α) :
    ∀ (n b e : Nat), e - b ≤ n → b < e → find_deck cmp decks val b e = e →
      qualifies cmp decks (e - 1) val = false := by
  intro n
  induction n with
  | zero =>
    intro b e hn hbe _
    omega
  | succ n ih =>
    intro b e hn hbe heq
    rw [find_deck] at heq
    by_cases h1 : e ≤ b
    · omega
    · rw [if_neg h1] at heq
      by_cases h2 : e = b + 1
      · rw [if_pos h2] at heq
        by_cases h3 : qualifies cmp decks b val
        · rw [if_pos h3] at heq
          omega
        · have : e - 1 = b := by omega
          rw [this]
          simpa using h3
      · rw [if_neg h2] at heq
        by_cases h3 : qualifies cmp decks (b + (e - b) / 2) val
        · rw [if_pos h3] at heq
          have hrange := find_deck_range cmp decks val n b (b + (e - b) / 2)
            (by omega) (by omega)
          omega
        · rw [if_neg h3] at heq
          exact ih (b + (e - b) / 2) e (by omega) (by omega) heq

theorem find_deck_leftmost (cmp : α → α → Bool) (decks : List (List α)) (val : α) :
    ∀ (n b e : Nat), e - b ≤ n → b ≤ e →
      (∀ i j, i ≤ j → j < e → qualifies cmp decks i val = true →
        qualifies cmp decks j val = true) →
      ∀ j, b ≤ j → j < find_deck cmp decks val b e →
        qualifies cmp decks j val = false := by
  intro n
  induction n with
  | zero =>
    intro b e hn hbe _ j hj hjlt
    have he : e = b := by omega
    subst he
    rw [find_deck] at hjlt
    simp at hjlt
    omega
  | succ n ih =>
    intro b e hn hbe hmono j hj hjlt
    rw [find_deck] at hjlt
    by_cases h1 : e ≤ b
    · rw [if_pos h1] at hjlt
      omega
    · rw [if_neg h1] at hjlt
      by_cases h2 : e = b + 1
      · rw [if_pos h2] at hjlt
        by_cases h3 : qualifies cmp decks b val
        · rw [if_pos h3] at hjlt
          omega
        · rw [if_neg h3] at hjlt
          have : j = b := by omega
          subst this
          simpa using h3
      · rw [if_neg h2] at hjlt
        by_cases h3 : qualifies cmp decks (b + (e - b) / 2) val
        · rw [if_pos h3] at hjlt
          exact ih b (b + (e - b) / 2) (by omega) (by omega)
            (fun i k hik hk hq => hmono i k hik (by omega) hq) j hj hjlt
        · rw [if_neg h3] at hjlt
          by_cases h4 : j < b + (e - b) / 2
          · cases h5 : qualifies cmp decks j val
            · rfl
            · have := hmono j (b + (e - b) / 2) (by omega) (by omega) h5
              rw [this] at h3
              exact absurd rfl h3
          · exact ih (b + (e - b) / 2) e (by omega) (by omega) hmono j
              (by omega) hjlt

/-- Invariant of the deck storage during distribution: every deck is
non-empty, every deck is strictly increasing under `cmp` (each element was
appended only when the deck's back was strictly smaller), and the extrema
are pairwise non-increasing in collection order. -/
def DInv (cmp : α → α → Bool) (decks : List (List α)) : Prop :=
  (∀ d ∈ decks, d ≠ []) ∧
  (∀ d ∈ decks, List.Chain' (fun a b => cmp a b = true) d) ∧
  (∀ i j x y, i < j → j < decks.length →
    (decks.getD i []).getLast? = some x → (decks.getD j []).getLast? = some y →
    cmp x y = false)

theorem DInv_nil (cmp : α → α → Bool) : DInv cmp ([] : List (List α)) := by
  refine ⟨by simp, by simp, ?_⟩
  intro i j x y _ hj
  simp at hj

theorem exists_extremum {decks : List (List α)} (h1 : ∀ d ∈ decks, d ≠ [])
    {i : Nat} (hi : i < decks.length) :
    ∃ x, (decks.getD i []).getLast? = some x := by
  have hmem : decks.getD i [] ∈ decks := by
    rw [List.getD_eq_getElem decks [] hi]
    exact List.getElem_mem hi
  have hne := h1 _ hmem
  rcases List.getLast?_isSome.mpr hne |> Option.isSome_iff_exists.mp with ⟨x, hx⟩
  exact ⟨x, hx⟩

theorem qualifies_eq_of_getLast {cmp : α → α → Bool} {decks : List (List α)}
    {i : Nat} {x : α} (hx : (decks.getD i []).getLast? = some x) (val : α) :
    qualifies cmp decks i val = cmp x val := by
  rw [qualifies, hx]

theorem qualifies_mono {cmp : α → α → Bool} {decks : List (List α)}
    (hswo : SWO cmp) (hinv : DInv cmp decks) (val : α) :
    ∀ i j, i ≤ j → j < decks.length → qualifies cmp decks i val = true →
      qualifies cmp decks j val = true := by
  intro i j hij hj hq
  rcases Nat.eq_or_lt_of_le hij with rfl | hlt
  · exact hq
  · obtain ⟨x, hx⟩ := exists_extremum hinv.1 (Nat.lt_trans hlt hj)
    obtain ⟨y, hy⟩ := exists_extremum hinv.1 hj
    rw [qualifies_eq_of_getLast hx] at hq
    rw [qualifies_eq_of_getLast hy]
    exact hswo.le_lt_trans (hinv.2.2 i j x y hlt hj hx hy) hq

theorem insert_elem_eq_found {cmp : α → α → Bool} {decks : List (List α)}
    {val : α} {i : Nat} (hfind : find_deck cmp decks val 0 decks.length = i)
    (hi : i < decks.length) :
    insert_elem cmp decks val = decks.set i (decks.getD i [] ++ [val]) := by
  rw [insert_elem, get_deck_pointer]
  simp only [hfind]
  rw [if_pos (by omega)]

theorem insert_elem_eq_new {cmp : α → α → Bool} {decks : List (List α)}
    {val : α} (hfind : find_deck cmp decks val 0 decks.length = decks.length) :
    insert_elem cmp decks val = decks ++ [[val]] := by
  rw [insert_elem, get_deck_pointer]
  simp only [hfind]
  rw [if_neg (by simp)]
  have h1 : (decks ++ [[]] : List (List α)).getD decks.length [] = [] := by
    rw [List.getD_eq_getElem _ [] (by simp)]
    rw [List.getElem_append_right (by omega)]
    simp
  have h2 : (decks ++ [([] : List α)]).set decks.length [val] = decks ++ [[val]] := by
    rw [show decks.length = decks.length + 0 from rfl, List.set_append_right _ _ (by omega)]
    simp
  simp only [h1, List.nil_append]
  exact h2

theorem getD_set_self {l : List (List α)} {i : Nat} (hi : i < l.length)
    (v : List α) : (l.set i v).getD i [] = v := by
  rw [List.getD_eq_getElem _ [] (by simpa using hi)]
  simp [List.getElem_set_self]

theorem getD_set_ne {l : List (List α)} {i j : Nat} (h : i ≠ j) (v : List α) :
    (l.set i v).getD j [] = l.getD j [] := by
  simp [List.getD_eq_getElem?_getD, List.getElem?_set_ne h]

theorem getD_append_left {l1 l2 : List (List α)} {j : Nat} (h : j < l1.length) :
    (l1 ++ l2).getD j [] = l1.getD j [] := by
  rw [List.getD_eq_getElem _ [] (by simp; omega), List.getD_eq_getElem _ [] h]
  exact List.getElem_append_left h

theorem getD_append_last {l1 : List (List α)} (v : List α) :
    (l1 ++ [v]).getD l1.length [] = v := by
  rw [List.getD_eq_getElem _ [] (by simp)]
  rw [List.getElem_append_right (by omega)]
  simp

theorem DInv_insert {cmp : α → α → Bool} (hswo : SWO cmp)
    {decks : List (List α)} (hinv : DInv cmp decks) (val : α) :
    DInv cmp (insert_elem cmp decks val) := by
  have hrange := find_deck_range cmp decks val decks.length 0 decks.length
    (by omega) (by omega)
  have hleft := find_deck_leftmost cmp decks val decks.length 0 decks.length
    (by omega) (by omega) (qualifies_mono hswo hinv val)
  by_cases hlt : find_deck cmp decks val 0 decks.length < decks.length
  · -- the element extends an existing deck
    have hq := find_deck_lt_qualifies cmp decks val decks.length 0 decks.length
      (by omega) (by omega) hlt
    obtain ⟨x, hx⟩ := exists_extremum hinv.1 hlt
    rw [qualifies_eq_of_getLast hx] at hq
    rw [insert_elem_eq_found rfl hlt]
    have hdmem : decks.getD (find_deck cmp decks val 0 decks.length) [] ∈ decks := by
      rw [List.getD_eq_getElem decks [] hlt]
      exact List.getElem_mem hlt
    refine ⟨?_, ?_, ?_⟩
    · intro d' hd'
      rcases List.mem_or_eq_of_mem_set hd' with h | h
      · exact hinv.1 _ h
      · subst h
        simp
    · intro d' hd'
      rcases List.mem_or_eq_of_mem_set hd' with h | h
      · exact hinv.2.1 _ h
      · subst h
        rw [List.chain'_append]
        refine ⟨hinv.2.1 _ hdmem, by simp, ?_⟩
        intro a ha b hb
        simp at hb
        subst hb
        rw [hx] at ha
        simp at ha
        subst ha
        exact hq
    · intro p q xp yq hpq hql hxp hyq
      rw [List.length_set] at hql
      by_cases hqi : q = find_deck cmp decks val 0 decks.length
      · subst hqi
        rw [getD_set_self hlt _] at hyq
        rw [List.getLast?_concat] at hyq
        have hyval : yq = val := (Option.some.inj hyq).symm
        rw [getD_set_ne (by omega) _] at hxp
        have := hleft p (by omega) (by omega)
        rw [qualifies_eq_of_getLast hxp] at this
        rw [hyval]
        exact this
      · by_cases hpi : p = find_deck cmp decks val 0 decks.length
        · subst hpi
          rw [getD_set_self hlt _] at hxp
          rw [List.getLast?_concat] at hxp
          have hxval : xp = val := (Option.some.inj hxp).symm
          rw [getD_set_ne (by omega) _] at hyq
          have hold := hinv.2.2 _ q x yq hpq hql hx hyq
          rw [hxval]
          cases hc : cmp val yq
          · rfl
          · have := hswo.trans hq hc
            rw [this] at hold
            exact absurd hold (by simp)
        · rw [getD_set_ne (by omega) _] at hxp
          rw [getD_set_ne (by omega) _] at hyq
          exact hinv.2.2 p q xp yq hpq hql hxp hyq
  · -- no deck qualifies: a fresh deck holding only the element is appended
    have hfe : find_deck cmp decks val 0 decks.length = decks.length := by omega
    rw [insert_elem_eq_new hfe]
    refine ⟨?_, ?_, ?_⟩
    · intro d' hd'
      rcases List.mem_append.mp hd' with h | h
      · exact hinv.1 _ h
      · simp at h
        subst h
        simp
    · intro d' hd'
      rcases List.mem_append.mp hd' with h | h
      · exact hinv.2.1 _ h
      · simp at h
        subst h
        simp
    · intro p q xp yq hpq hql hxp hyq
      simp at hql
      by_cases hq : q = decks.length
      · subst hq
        rw [getD_append_last] at hyq
        simp at hyq
        subst hyq
        rw [getD_append_left (by omega)] at hxp
        have := hleft p (by omega) (by omega)
        rw [qualifies_eq_of_getLast hxp] at this
        exact this
      · rw [getD_append_left (by omega)] at hxp
        rw [getD_append_left (by omega)] at hyq
        exact hinv.2.2 p q xp yq hpq (by omega) hxp hyq

theorem foldl_insert_DInv {cmp : α → α → Bool} (hswo : SWO cmp) :
    ∀ (xs : List α) (decks : List (List α)), DInv cmp decks →
      DInv cmp (xs.foldl (insert_elem cmp) decks)
  | [], decks, h => h
  | x :: xs, decks, h =>
    foldl_insert_DInv hswo xs (insert_elem cmp decks x) (DInv_insert hswo h x)

/-- After any number of insertions the deck invariant holds: decks are
non-empty, strictly increasing, and their extrema are pairwise
non-increasing in collection order. -/
theorem distribute_DInv {cmp : α → α → Bool} (hswo : SWO cmp) (xs : List α) :
    DInv cmp (distribute cmp xs) :=
  foldl_insert_DInv hswo xs [] (DInv_nil cmp)

theorem flatten_set_perm (v : α) :
    ∀ (l : List (List α)) (i : Nat), i < l.length →
      ((l.set i (l.getD i [] ++ [v])).flatten).Perm (l.flatten ++ [v])
  | [], i, hi => by simp at hi
  | d :: rest, 0, _ => by
    simp only [List.set_cons_zero, List.getD_cons_zero, List.flatten_cons]
    rw [List.append_assoc, List.append_assoc]
    exact List.Perm.append_left d (by simpa using (List.perm_append_singleton v rest.flatten).symm)
  | d :: rest, i + 1, hi => by
    simp only [List.set_cons_succ, List.getD_cons_succ, List.flatten_cons]
    have ih := flatten_set_perm v rest i (by simpa using hi)
    have h2 := List.Perm.append_left d ih
    rw [List.append_assoc]
    exact h2

theorem insert_elem_flatten_perm (cmp : α → α → Bool) (decks : List (List α))
    (val : α) :
    ((insert_elem cmp decks val).flatten).Perm (decks.flatten ++ [val]) := by
  have hrange := find_deck_range cmp decks val decks.length 0 decks.length
    (by omega) (by omega)
  by_cases hlt : find_deck cmp decks val 0 decks.length < decks.length
  · rw [insert_elem_eq_found rfl hlt]
    exact flatten_set_perm val decks _ hlt
  · rw [insert_elem_eq_new (by omega)]
    simp

theorem foldl_insert_flatten_perm (cmp : α → α → Bool) :
    ∀ (xs : List α) (decks : List (List α)),
      ((xs.foldl (insert_elem cmp) decks).flatten).Perm (decks.flatten ++ xs)
  | [], decks => by simp
  | x :: xs, decks => by
    have ih := foldl_insert_flatten_perm cmp xs (insert_elem cmp decks x)
    have h1 := (insert_elem_flatten_perm cmp decks x).append_right xs
    have h2 := ih.trans h1
    simpa [List.append_assoc] using h2

/-- The decks together hold exactly the input elements: distribution only
moves elements, it never drops or duplicates one. -/
theorem distribute_flatten_perm (cmp : α → α → Bool) (xs : List α) :
    ((distribute cmp xs).flatten).Perm xs := by
  simpa using foldl_insert_flatten_perm cmp xs []

/-- Non-decreasing order under `cmp`: no adjacent pair is strictly
descending.  This is the sortedness notion produced by the algorithm. -/
def nondecr (cmp : α → α → Bool) (l : List α) : Prop :=
  List.Chain' (fun a b => cmp b a = false) l

theorem list_merge_perm (cmp : α → α → Bool) :
    ∀ (a b : List α), (list_merge cmp a b).Perm (a ++ b)
  | [], ys => by simp [list_merge]
  | x :: xs, [] => by simp [list_merge]
  | x :: xs, y :: ys => by
    rw [list_merge]
    by_cases h : cmp y x
    · rw [if_pos h]
      have ih := list_merge_perm cmp (x :: xs) ys
      exact (ih.cons y).trans List.perm_middle.symm
    · rw [if_neg h]
      exact (list_merge_perm cmp xs (y :: ys)).cons x
termination_by a b => a.length + b.length

theorem list_merge_head (cmp : α → α → Bool) (a b : List α) (z : α)
    (h : (list_merge cmp a b).head? = some z) :
    a.head? = some z ∨ b.head? = some z := by
  match a, b with
  | [], ys =>
    rw [list_merge] at h
    exact Or.inr h
  | x :: xs, [] =>
    rw [list_merge] at h
    exact Or.inl h
  | x :: xs, y :: ys =>
    rw [list_merge] at h
    by_cases hc : cmp y x
    · rw [if_pos hc] at h
      simp at h
      exact Or.inr (by simp [h])
    · rw [if_neg hc] at h
      simp at h
      exact Or.inl (by simp [h])

theorem list_merge_sorted {cmp : α → α → Bool} (hswo : SWO cmp) :
    ∀ (a b : List α), nondecr cmp a → nondecr cmp b →
      nondecr cmp (list_merge cmp a b)
  | [], ys, _, hb => by rw [list_merge]; exact hb
  | x :: xs, [], ha, _ => by rw [list_merge]; exact ha
  | x :: xs, y :: ys, ha, hb => by
    rw [list_merge]
    rcases List.chain'_cons'.mp ha with ⟨hax, hxs⟩
    rcases List.chain'_cons'.mp hb with ⟨hby, hys⟩
    by_cases h : cmp y x
    · rw [if_pos h]
      refine List.chain'_cons'.mpr ⟨?_, list_merge_sorted hswo (x :: xs) ys ha hys⟩
      intro z hz
      rcases list_merge_head cmp (x :: xs) ys z hz with h1 | h1
      · simp at h1
        rw [← h1]
        exact hswo.asymm h
      · exact hby z h1
    · rw [if_neg h]
      refine List.chain'_cons'.mpr ⟨?_, list_merge_sorted hswo xs (y :: ys) hxs hb⟩
      intro z hz
      rcases list_merge_head cmp xs (y :: ys) z hz with h1 | h1
      · exact hax z h1
      · simp at h1
        rw [← h1]
        simpa using h
termination_by a b => a.length + b.length

theorem pair_merge_flatten_perm (cmp : α → α → Bool) :
    ∀ (ds : List (List α)), ((pair_merge cmp ds).flatten).Perm ds.flatten
  | [] => by simp [pair_merge]
  | [d] => by simp [pair_merge]
  | d1 :: d2 :: rest => by
    simp only [pair_merge, List.flatten_cons]
    have h1 := (list_merge_perm cmp d1 d2).append (pair_merge_flatten_perm cmp rest)
    refine h1.trans ?_
    rw [List.append_assoc]

theorem pair_merge_sorted {cmp : α → α → Bool} (hswo : SWO cmp) :
    ∀ (ds : List (List α)), (∀ d ∈ ds, nondecr cmp d) →
      ∀ d ∈ pair_merge cmp ds, nondecr cmp d
  | [], _ => by simp [pair_merge]
  | [d], h => by simpa [pair_merge] using h
  | d1 :: d2 :: rest, h => by
    simp only [pair_merge]
    intro d hd
    rcases List.mem_cons.mp hd with h1 | h1
    · subst h1
      exact list_merge_sorted hswo d1 d2 (h d1 (by simp)) (h d2 (by simp))
    · exact pair_merge_sorted hswo rest (fun d' hd' => h d' (by simp [hd'])) d h1

theorem merge_round_flatten_perm (cmp : α → α → Bool) (ds r : List (List α))
    (h : merge_round cmp ds = some r) : (r.flatten).Perm ds.flatten := by
  cases ds with
  | nil => rw [merge_round_nil] at h; exact absurd h (by simp)
  | cons d rest =>
    rw [merge_round_cons] at h
    by_cases h' : rest.length % 2 = 0
    · rw [if_pos h'] at h
      cases Option.some.inj h
      simp only [List.flatten_cons]
      exact List.Perm.append_left d (pair_merge_flatten_perm cmp rest)
    · rw [if_neg h'] at h
      cases Option.some.inj h
      exact pair_merge_flatten_perm cmp (d :: rest)

theorem merge_round_sorted {cmp : α → α → Bool} (hswo : SWO cmp)
    (ds r : List (List α)) (h : merge_round cmp ds = some r)
    (hs : ∀ d ∈ ds, nondecr cmp d) : ∀ d ∈ r, nondecr cmp d := by
  cases ds with
  | nil => rw [merge_round_nil] at h; exact absurd h (by simp)
  | cons d rest =>
    rw [merge_round_cons] at h
    by_cases h' : rest.length % 2 = 0
    · rw [if_pos h'] at h
      cases Option.some.inj h
      intro d' hd'
      rcases List.mem_cons.mp hd' with h1 | h1
      · subst h1
        exact hs _ (by simp)
      · exact pair_merge_sorted hswo rest (fun e he => hs e (by simp [he])) d' h1
    · rw [if_neg h'] at h
      cases Option.some.inj h
      exact pair_merge_sorted hswo (d :: rest) hs

theorem merge_decks_nil (cmp : α → α → Bool) :
    merge_decks cmp ([] : List (List α)) = none := by
  rw [merge_decks]
  rw [if_neg (by simp)]
  split
  · rfl
  · next r heq =>
    rw [merge_round_nil] at heq
    exact absurd heq (by simp)

theorem merge_decks_one (cmp : α → α → Bool) (d : List α) :
    merge_decks cmp [d] = some [d] := by
  rw [merge_decks]
  rw [if_pos (by simp)]

theorem merge_decks_step (cmp : α → α → Bool) (ds r : List (List α))
    (hne : ds.length ≠ 1) (h : merge_round cmp ds = some r) :
    merge_decks cmp ds = merge_decks cmp r := by
  rw [merge_decks, if_neg hne]
  split
  · next heq =>
    rw [h] at heq
    exact absurd heq (by simp)
  · next r' heq =>
    rw [h] at heq
    cases Option.some.inj heq
    rfl

/-- The merge tournament on a non-empty deck collection terminates with a
single deck holding a permutation of all the elements, sorted when the
input decks were sorted. -/
theorem merge_decks_spec {cmp : α → α → Bool} (hswo : SWO cmp) :
    ∀ (n : Nat) (ds : List (List α)), ds.length ≤ n → ds ≠ [] →
      (∀ d ∈ ds, nondecr cmp d) →
      ∃ d, merge_decks cmp ds = some [d] ∧ (d : List α).Perm ds.flatten ∧
        nondecr cmp d := by
  intro n
  induction n with
  | zero =>
    intro ds hn hne _
    exact absurd (List.length_eq_zero.mp (by omega)) hne
  | succ n ih =>
    intro ds hn hne hs
    by_cases h1 : ds.length = 1
    · obtain ⟨d, hd⟩ := List.length_eq_one.mp h1
      subst hd
      exact ⟨d, merge_decks_one cmp d, by simp, hs d (by simp)⟩
    · have hlen : 2 ≤ ds.length := by
        have : ds.length ≠ 0 := by simpa using hne
        omega
      cases ds with
      | nil => exact absurd rfl hne
      | cons d rest =>
        have hr := merge_round_cons cmp d rest
        set r := if rest.length % 2 = 0 then d :: pair_merge cmp rest
                 else pair_merge cmp (d :: rest) with hrdef
        have hrl := merge_round_some_length cmp (d :: rest) r hr
        have hrne : r ≠ [] := by
          intro hnil
          rw [hnil] at hrl
          simp at hrl
          omega
        obtain ⟨out, hout, hperm, hsort⟩ := ih r (by simp at hn hrl hlen ⊢; omega) hrne
          (merge_round_sorted hswo (d :: rest) r hr hs)
        refine ⟨out, ?_, ?_, hsort⟩
        · rw [merge_decks_step cmp (d :: rest) r h1 hr]
          exact hout
        · exact hperm.trans (merge_round_flatten_perm cmp (d :: rest) r hr)

/-- Embedding of `Patience::default_compare`: the type's natural `<`. -/
def default_compare {β : Type} [LinearOrder β] (lhs rhs : β) : Bool :=
  decide (lhs < rhs)

theorem default_compare_SWO {β : Type} [LinearOrder β] :
    SWO (@default_compare β _) := by
  refine ⟨?_, ?_, ?_⟩
  · intro a
    simp [default_compare]
  · intro a b c h1 h2
    simp [default_compare] at h1 h2 ⊢
    exact lt_trans h1 h2
  · intro a b c h1 h2
    simp [default_compare] at h1 h2 ⊢
    exact le_trans h2 h1

theorem insert_elem_ne_nil (cmp : α → α → Bool) (decks : List (List α))
    (val : α) : insert_elem cmp decks val ≠ [] := by
  have hrange := find_deck_range cmp decks val decks.length 0 decks.length
    (by omega) (by omega)
  by_cases hlt : find_deck cmp decks val 0 decks.length < decks.length
  · rw [insert_elem_eq_found rfl hlt]
    apply List.length_pos.mp
    rw [List.length_set]
    omega
  · rw [insert_elem_eq_new (by omega)]
    simp

theorem foldl_insert_ne_nil (cmp : α → α → Bool) :
    ∀ (xs : List α) (decks : List (List α)), decks ≠ [] →
      xs.foldl (insert_elem cmp) decks ≠ []
  | [], decks, h => h
  | x :: xs, decks, _ =>
    foldl_insert_ne_nil cmp xs (insert_elem cmp decks x)
      (insert_elem_ne_nil cmp decks x)

theorem distribute_ne_nil (cmp : α → α → Bool) (xs : List α) (h : xs ≠ []) :
    distribute cmp xs ≠ [] := by
  cases xs with
  | nil => exact absurd rfl h
  | cons x xs =>
    rw [distribute, List.foldl_cons]
    exact foldl_insert_ne_nil cmp xs _ (insert_elem_ne_nil cmp [] x)

theorem distribute_decks_nondecr {cmp : α → α → Bool} (hswo : SWO cmp)
    (xs : List α) : ∀ d ∈ distribute cmp xs, nondecr cmp d := by
  intro d hd
  have hchain := (distribute_DInv hswo xs).2.1 d hd
  exact hchain.imp (fun a b hab => hswo.asymm hab)

/-- Full functional correctness of both sorting variants on non-empty
input: the output exists (no out-of-range access), is a permutation of the
input, and is non-decreasing under the comparator. -/
theorem sort_spec {cmp : α → α → Bool} (hswo : SWO cmp) (xs : List α)
    (hne : xs ≠ []) :
    ∃ out, patience_sort cmp xs = some out ∧
      patience_sort_cont cmp xs = some out ∧
      out.Perm xs ∧ nondecr cmp out := by
  have hdne := distribute_ne_nil cmp xs hne
  obtain ⟨d, hd, hperm, hsort⟩ := merge_decks_spec hswo (distribute cmp xs).length
    (distribute cmp xs) (by omega) hdne (distribute_decks_nondecr hswo xs)
  refine ⟨d, ?_, ?_, ?_, hsort⟩
  · rw [patience_sort, hd]
    rfl
  · rw [patience_sort_cont, hd]
    simp
  · exact hperm.trans (distribute_flatten_perm cmp xs)

theorem patience_sort_nil_none (cmp : α → α → Bool) :
    patience_sort cmp ([] : List α) = none := by
  rw [patience_sort]
  rw [show distribute cmp ([] : List α) = [] from rfl, merge_decks_nil]
  rfl

theorem patience_sort_cont_nil_none (cmp : α → α → Bool) :
    patience_sort_cont cmp ([] : List α) = none := by
  rw [patience_sort_cont]
  rw [show distribute cmp ([] : List α) = [] from rfl, merge_decks_nil]
  rfl

theorem chain'_extrema_of_pairwise {cmp : α → α → Bool} :
    ∀ (decks : List (List α)), (∀ d ∈ decks, d ≠ []) →
      (∀ i j x y, i < j → j < decks.length →
        (decks.getD i []).getLast? = some x →
        (decks.getD j []).getLast? = some y → cmp x y = false) →
      List.Chain' (fun a b => cmp a b = false) (extrema decks)
  | [], _, _ => by simp [extrema]
  | d :: rest, hne, hp => by
    obtain ⟨x, hx⟩ := exists_extremum hne (show 0 < (d :: rest).length by simp)
    rw [List.getD_cons_zero] at hx
    have hx2 : extrema (d :: rest) = x :: extrema rest := by
      rw [extrema, List.filterMap_cons, hx]
      rfl
    rw [hx2]
    refine List.chain'_cons'.mpr ⟨?_, ?_⟩
    · intro y hy
      cases rest with
      | nil => simp [extrema] at hy
      | cons e rest' =>
        obtain ⟨z, hz⟩ := exists_extremum (fun d' hd' => hne d' (by simp [hd']))
          (show 0 < (e :: rest').length by simp)
        rw [List.getD_cons_zero] at hz
        have : extrema (e :: rest') = z :: extrema rest' := by
          rw [extrema, List.filterMap_cons, hz]
          rfl
        rw [this] at hy
        simp at hy
        rw [hy] at hz
        exact hp 0 1 x y (by omega) (by simp) (by simpa using hx) (by simpa using hz)
    · exact chain'_extrema_of_pairwise rest (fun d' hd' => hne d' (by simp [hd']))
        (fun i j x' y' hij hj hx' hy' =>
          hp (i + 1) (j + 1) x' y' (by omega) (by simpa using hj)
            (by simpa using hx') (by simpa using hy'))

/-- The extrema of the decks, read in collection order, form a
non-increasing sequence after every insertion of the distribution pass. -/
theorem distribute_extrema_chain {cmp : α → α → Bool} (hswo : SWO cmp)
    (xs : List α) :
    List.Chain' (fun a b => cmp a b = false) (extrema (distribute cmp xs)) := by
  have hinv := distribute_DInv hswo xs
  exact chain'_extrema_of_pairwise (distribute cmp xs) hinv.1 hinv.2.2

/-- Characterization of the pile locator on any state reachable during
distribution: either it returns an existing deck whose extremum is strictly
below the element and is the largest extremum with that property, or no
deck qualifies and a new singleton deck is appended at the end. -/
theorem get_deck_pointer_spec {cmp : α → α → Bool} (hswo : SWO cmp)
    {decks : List (List α)} (hinv : DInv cmp decks) (val : α) :
    (∃ i x, (get_deck_pointer cmp decks val).1 = i ∧
      (get_deck_pointer cmp decks val).2 = decks ∧
      i < decks.length ∧ (decks.getD i []).getLast? = some x ∧
      cmp x val = true ∧
      (∀ j y, j < decks.length → (decks.getD j []).getLast? = some y →
        cmp y val = true → cmp x y = false) ∧
      insert_elem cmp decks val = decks.set i (decks.getD i [] ++ [val])) ∨
    ((∀ j y, j < decks.length → (decks.getD j []).getLast? = some y →
        cmp y val = false) ∧
      (get_deck_pointer cmp decks val).1 = decks.length ∧
      (get_deck_pointer cmp decks val).2 = decks ++ [[]] ∧
      insert_elem cmp decks val = decks ++ [[val]]) := by
  have hrange := find_deck_range cmp decks val decks.length 0 decks.length
    (by omega) (by omega)
  have hleft := find_deck_leftmost cmp decks val decks.length 0 decks.length
    (by omega) (by omega) (qualifies_mono hswo hinv val)
  by_cases hlt : find_deck cmp decks val 0 decks.length < decks.length
  · left
    have hq := find_deck_lt_qualifies cmp decks val decks.length 0 decks.length
      (by omega) (by omega) hlt
    obtain ⟨x, hx⟩ := exists_extremum hinv.1 hlt
    rw [qualifies_eq_of_getLast hx] at hq
    refine ⟨find_deck cmp decks val 0 decks.length, x, ?_, ?_, hlt, hx, hq, ?_,
      insert_elem_eq_found rfl hlt⟩
    · rw [get_deck_pointer, if_pos (by omega)]
    · rw [get_deck_pointer, if_pos (by omega)]
    · intro j y hj hy hqy
      rcases Nat.lt_trichotomy j (find_deck cmp decks val 0 decks.length)
        with h | h | h
      · have := hleft j (by omega) h
        rw [qualifies_eq_of_getLast hy] at this
        rw [this] at hqy
        exact absurd hqy (by simp)
      · subst h
        rw [hy] at hx
        cases Option.some.inj hx
        exact hswo.irrefl x
      · exact hinv.2.2 _ j x y h hj hx hy
  · right
    have hfe : find_deck cmp decks val 0 decks.length = decks.length := by omega
    refine ⟨?_, ?_, ?_, insert_elem_eq_new hfe⟩
    · intro j y hj hy
      have := hleft j (by omega) (by omega)
      rw [qualifies_eq_of_getLast hy] at this
      exact this
    · rw [get_deck_pointer, if_neg (by omega)]
    · rw [get_deck_pointer, if_neg (by omega)]

theorem insert_elem_all_nonempty (cmp : α → α → Bool) (decks : List (List α))
    (val : α) (h : ∀ d ∈ decks, d ≠ []) :
    ∀ d ∈ insert_elem cmp decks val, d ≠ [] := by
  have hrange := find_deck_range cmp decks val decks.length 0 decks.length
    (by omega) (by omega)
  by_cases hlt : find_deck cmp decks val 0 decks.length < decks.length
  · rw [insert_elem_eq_found rfl hlt]
    intro d hd
    rcases List.mem_or_eq_of_mem_set hd with h1 | h1
    · exact h _ h1
    · subst h1
      simp
  · rw [insert_elem_eq_new (by omega)]
    intro d hd
    rcases List.mem_append.mp hd with h1 | h1
    · exact h _ h1
    · simp at h1
      subst h1
      simp

/-- Every deck is non-empty in every state the distribution pass can reach,
for any comparator whatsoever (no ordering assumption needed). -/
theorem distribute_all_nonempty (cmp : α → α → Bool) (xs : List α) :
    ∀ d ∈ distribute cmp xs, d ≠ [] := by
  suffices h : ∀ (ys : List α) (decks : List (List α)),
      (∀ d ∈ decks, d ≠ []) → ∀ d ∈ ys.foldl (insert_elem cmp) decks, d ≠ [] by
    exact h xs [] (by simp)
  intro ys
  induction ys with
  | nil => intro decks h; simpa using h
  | cons y ys ih =>
    intro decks h
    rw [List.foldl_cons]
    exact ih _ (insert_elem_all_nonempty cmp decks y h)

theorem find_deck_eq_length_of_none {cmp : α → α → Bool}
    {decks : List (List α)} {val : α}
    (h : ∀ j, j < decks.length → qualifies cmp decks j val = false) :
    find_deck cmp decks val 0 decks.length = decks.length := by
  have hrange := find_deck_range cmp decks val decks.length 0 decks.length
    (by omega) (by omega)
  by_contra hne
  have hlt : find_deck cmp decks val 0 decks.length < decks.length := by omega
  have hq := find_deck_lt_qualifies cmp decks val decks.length 0 decks.length
    (by omega) (by omega) hlt
  rw [h _ hlt] at hq
  exact absurd hq (by simp)

theorem flatten_singletons : ∀ xs : List α, (xs.map (fun x => [x])).flatten = xs
  | [] => rfl
  | x :: xs => by simp [flatten_singletons xs]

theorem getD_map_singleton (ys : List α) (j : Nat) (hj : j < ys.length) :
    (ys.map (fun x => [x])).getD j [] = [ys.get ⟨j, hj⟩] := by
  rw [List.getD_eq_getElem _ [] (by simpa using hj)]
  simp

theorem foldl_insert_all_equal (cmp : α → α → Bool) :
    ∀ (xs ys : List α), (∀ a ∈ ys ++ xs, ∀ b ∈ ys ++ xs, cmp a b = false) →
      xs.foldl (insert_elem cmp) (ys.map (fun x => [x]))
        = ((ys ++ xs).map (fun x => [x])) := by
  intro xs
  induction xs with
  | nil => intro ys _; simp
  | cons x xs ih =>
    intro ys h
    rw [List.foldl_cons]
    have hqual : ∀ j, j < (ys.map (fun x => [x])).length →
        qualifies cmp (ys.map (fun x => [x])) j x = false := by
      intro j hj
      have hj' : j < ys.length := by simpa using hj
      rw [qualifies, getD_map_singleton ys j hj']
      simp only [List.getLast?_singleton]
      exact h _ (by simp [List.get_mem]) x (by simp)
    have hstep := insert_elem_eq_new (find_deck_eq_length_of_none hqual)
    rw [hstep]
    have : ys.map (fun x => [x]) ++ [[x]] = (ys ++ [x]).map (fun x => [x]) := by
      simp
    rw [this, ih (ys ++ [x]) (by simpa using h)]
    simp

/-- On input whose elements are pairwise incomparable, every element opens a
fresh deck: the distribution produces one singleton pile per element, in
input order. -/
theorem distribute_all_equal (cmp : α → α → Bool) (xs : List α)
    (h : ∀ a ∈ xs, ∀ b ∈ xs, cmp a b = false) :
    distribute cmp xs = xs.map (fun x => [x]) := by
  simpa using foldl_insert_all_equal cmp xs [] (by simpa using h)

theorem list_merge_eq_append (cmp : α → α → Bool) :
    ∀ (a b : List α), (∀ x ∈ a, ∀ y ∈ b, cmp y x = false) →
      list_merge cmp a b = a ++ b
  | [], ys, _ => by rw [list_merge]; rfl
  | x :: xs, [], _ => by rw [list_merge]; simp
  | x :: xs, y :: ys, h => by
    rw [list_merge, if_neg (by simp [h x (by simp) y (by simp)])]
    rw [list_merge_eq_append cmp xs (y :: ys) (fun u hu v hv => h u (by simp [hu]) v hv)]
    rfl
termination_by a b => a.length + b.length

theorem pair_merge_flatten_eq (cmp : α → α → Bool) :
    ∀ (ds : List (List α)),
      (∀ a ∈ ds.flatten, ∀ b ∈ ds.flatten, cmp a b = false) →
      (pair_merge cmp ds).flatten = ds.flatten
  | [], _ => rfl
  | [d], _ => rfl
  | d1 :: d2 :: rest, h => by
    simp only [pair_merge, List.flatten_cons]
    rw [list_merge_eq_append cmp d1 d2
      (fun x hx y hy => h y (by simp [hy]) x (by simp [hx]))]
    rw [pair_merge_flatten_eq cmp rest
      (fun a ha b hb => h a (by simp [ha]) b (by simp [hb]))]
    simp

theorem merge_round_flatten_eq (cmp : α → α → Bool) (ds r : List (List α))
    (hr : merge_round cmp ds = some r)
    (h : ∀ a ∈ ds.flatten, ∀ b ∈ ds.flatten, cmp a b = false) :
    r.flatten = ds.flatten := by
  cases ds with
  | nil => rw [merge_round_nil] at hr; exact absurd hr (by simp)
  | cons d rest =>
    rw [merge_round_cons] at hr
    by_cases h' : rest.length % 2 = 0
    · rw [if_pos h'] at hr
      cases Option.some.inj hr
      simp only [List.flatten_cons]
      rw [pair_merge_flatten_eq cmp rest
        (fun a ha b hb => h a (by simp [ha]) b (by simp [hb]))]
    · rw [if_neg h'] at hr
      cases Option.some.inj hr
      exact pair_merge_flatten_eq cmp (d :: rest) h

theorem merge_decks_all_equal (cmp : α → α → Bool) :
    ∀ (n : Nat) (ds : List (List α)), ds.length ≤ n → ds ≠ [] →
      (∀ a ∈ ds.flatten, ∀ b ∈ ds.flatten, cmp a b = false) →
      merge_decks cmp ds = some [ds.flatten] := by
  intro n
  induction n with
  | zero =>
    intro ds hn hne _
    exact absurd (List.length_eq_zero.mp (by omega)) hne
  | succ n ih =>
    intro ds hn hne h
    by_cases h1 : ds.length = 1
    · obtain ⟨d, hd⟩ := List.length_eq_one.mp h1
      subst hd
      rw [merge_decks_one]
      simp
    · have hlen : 2 ≤ ds.length := by
        have : ds.length ≠ 0 := by simpa using hne
        omega
      cases ds with
      | nil => exact absurd rfl hne
      | cons d rest =>
        have hr := merge_round_cons cmp d rest
        set r := if rest.length % 2 = 0 then d :: pair_merge cmp rest
                 else pair_merge cmp (d :: rest) with hrdef
        have hrl := merge_round_some_length cmp (d :: rest) r hr
        have hrne : r ≠ [] := by
          intro hnil
          rw [hnil] at hrl
          simp at hrl
          omega
        have hfe := merge_round_flatten_eq cmp (d :: rest) r hr h
        rw [merge_decks_step cmp (d :: rest) r h1 hr]
        rw [ih r (by simp at hn hrl hlen ⊢; omega) hrne (by rw [hfe]; exact h)]
        rw [hfe]

/-- On non-empty all-equal input the sort produces one pile per element and
returns the input unchanged. -/
theorem all_equal_sort (cmp : α → α → Bool) (xs : List α) (hne : xs ≠ [])
    (h : ∀ a ∈ xs, ∀ b ∈ xs, cmp a b = false) :
    (distribute cmp xs).length = xs.length ∧
      patience_sort cmp xs = some xs := by
  have hd := distribute_all_equal cmp xs h
  constructor
  · rw [hd]
    simp
  · rw [patience_sort, hd]
    have hmap_ne : xs.map (fun x => [x]) ≠ [] := by simpa using hne
    rw [merge_decks_all_equal cmp (xs.map (fun x => [x])).length _ (by omega)
      hmap_ne (by rw [flatten_singletons]; exact h)]
    rw [flatten_singletons]
    rfl

/-- Equivalence under the comparator: neither element is strictly below the
other (`!less(a,b) && !less(b,a)`). -/
def eqvB (cmp : α → α → Bool) (a b : α) : Bool :=
  !cmp a b && !cmp b a

theorem nondecr_pairwise {cmp : α → α → Bool} (hswo : SWO cmp) :
    ∀ {l : List α}, nondecr cmp l →
      List.Pairwise (fun a b => cmp b a = false) l
  | [], _ => by simp
  | x :: xs, h => by
    have h' : List.Chain' (fun a b : α => cmp b a = false) (x :: xs) := h
    rcases List.chain'_cons'.mp h' with ⟨hx, hxs⟩
    refine List.pairwise_cons.mpr ⟨?_, nondecr_pairwise hswo hxs⟩
    intro u hu
    cases xs with
    | nil => simp at hu
    | cons y ys =>
      have hyx : cmp y x = false := hx y (by simp)
      rcases List.mem_cons.mp hu with h1 | h1
      · subst h1
        exact hyx
      · have hp := nondecr_pairwise hswo hxs
        have huy : cmp u y = false := (List.pairwise_cons.mp hp).1 u h1
        exact hswo.negtrans huy hyx

theorem incr_pairwise {cmp : α → α → Bool} (hswo : SWO cmp) :
    ∀ {l : List α}, List.Chain' (fun a b => cmp a b = true) l →
      List.Pairwise (fun a b => cmp a b = true) l
  | [], _ => by simp
  | x :: xs, h => by
    rcases List.chain'_cons'.mp h with ⟨hx, hxs⟩
    refine List.pairwise_cons.mpr ⟨?_, incr_pairwise hswo hxs⟩
    intro u hu
    cases xs with
    | nil => simp at hu
    | cons y ys =>
      have hxy : cmp x y = true := hx y (by simp)
      rcases List.mem_cons.mp hu with h1 | h1
      · subst h1
        exact hxy
      · have hp := incr_pairwise hswo hxs
        have hyu : cmp y u = true := (List.pairwise_cons.mp hp).1 u h1
        exact hswo.trans hxy hyu

theorem last_dominates {cmp : α → α → Bool} (hswo : SWO cmp) :
    ∀ (d : List α) (e : α), List.Chain' (fun a b => cmp a b = true) d →
      d.getLast? = some e → ∀ u ∈ d, cmp e u = false := by
  intro d e hchain hlast u hu
  have hp := incr_pairwise hswo hchain
  rcases List.getLast?_eq_some_iff.mp hlast with ⟨d', rfl⟩
  rcases List.mem_append.mp hu with h1 | h1
  · have hsplit := List.pairwise_append.mp hp
    have hcu : cmp u e = true := hsplit.2.2 u h1 e (by simp)
    exact hswo.asymm hcu
  · simp at h1
    subst h1
    exact hswo.irrefl u

theorem list_merge_filter {cmp : α → α → Bool} (hswo : SWO cmp) (z : α) :
    ∀ (a b : List α), nondecr cmp a →
      (list_merge cmp a b).filter (eqvB cmp z)
        = a.filter (eqvB cmp z) ++ b.filter (eqvB cmp z)
  | [], ys, _ => by rw [list_merge]; rfl
  | x :: xs, [], _ => by rw [list_merge]; simp
  | x :: xs, y :: ys, ha => by
    rw [list_merge]
    by_cases h : cmp y x
    · rw [if_pos h]
      have ih := list_merge_filter hswo z (x :: xs) ys ha
      by_cases hzy : eqvB cmp z y = true
      · have hzy2 : cmp y z = false := by
          have := hzy
          simp [eqvB] at this
          exact this.2
        have hfa : (x :: xs).filter (eqvB cmp z) = [] := by
          apply List.filter_eq_nil_iff.mpr
          intro u hu
          have hux : cmp u x = false := by
            rcases List.mem_cons.mp hu with h1 | h1
            · subst h1
              exact hswo.irrefl u
            · exact (List.pairwise_cons.mp (nondecr_pairwise hswo ha)).1 u h1
          have hyu : cmp y u = true := hswo.lt_le_trans h hux
          have hzu : cmp z u = true := hswo.le_lt_trans hzy2 hyu
          simp [eqvB, hzu]
        rw [List.filter_cons_of_pos hzy, ih, hfa]
        rw [List.filter_cons_of_pos hzy]
        simp
      · rw [List.filter_cons_of_neg hzy, ih]
        conv_rhs => rw [List.filter_cons_of_neg hzy]
    · rw [if_neg h]
      have ih := list_merge_filter hswo z xs (y :: ys)
        (List.chain'_cons'.mp ha).2
      by_cases hzx : eqvB cmp z x = true
      · rw [List.filter_cons_of_pos hzx, ih]
        conv_rhs => rw [List.filter_cons_of_pos hzx]
        simp
      · rw [List.filter_cons_of_neg hzx, ih]
        conv_rhs => rw [List.filter_cons_of_neg hzx]
termination_by a b => a.length + b.length

theorem flatten_set_decomp (M : List (List α)) (i : Nat) (hi : i < M.length)
    (X : List α) :
    (M.set i X).flatten
      = (M.take i).flatten ++ X ++ (M.drop (i + 1)).flatten := by
  rw [List.set_eq_take_cons_drop X hi]
  simp [List.flatten_append]

theorem flatten_decomp (M : List (List α)) (i : Nat) (hi : i < M.length) :
    M.flatten = (M.take i).flatten ++ M.getD i [] ++ (M.drop (i + 1)).flatten := by
  conv_lhs => rw [← List.take_append_drop i M]
  rw [List.flatten_append]
  have : M.drop i = M.getD i [] :: M.drop (i + 1) := by
    rw [List.getD_eq_getElem M [] hi]
    rw [← List.getElem_cons_drop M i hi]
  rw [this]
  simp

theorem insert_elem_filter {cmp : α → α → Bool} (hswo : SWO cmp)
    {decks : List (List α)} (hinv : DInv cmp decks) (v z : α) :
    ((insert_elem cmp decks v).map (fun d => d.filter (eqvB cmp z))).flatten
      = (decks.map (fun d => d.filter (eqvB cmp z))).flatten
        ++ (if eqvB cmp z v = true then [v] else []) := by
  have hrange := find_deck_range cmp decks v decks.length 0 decks.length
    (by omega) (by omega)
  by_cases hlt : find_deck cmp decks v 0 decks.length < decks.length
  · have hq := find_deck_lt_qualifies cmp decks v decks.length 0 decks.length
      (by omega) (by omega) hlt
    obtain ⟨x, hx⟩ := exists_extremum hinv.1 hlt
    rw [qualifies_eq_of_getLast hx] at hq
    rw [insert_elem_eq_found rfl hlt]
    rw [List.map_set]
    have hmlen : find_deck cmp decks v 0 decks.length
        < (decks.map (fun d => d.filter (eqvB cmp z))).length := by
      simpa using hlt
    rw [flatten_set_decomp _ _ hmlen]
    conv_rhs => rw [flatten_decomp (decks.map (fun d => d.filter (eqvB cmp z)))
      (find_deck cmp decks v 0 decks.length) hmlen]
    have hgd : (decks.map (fun d => d.filter (eqvB cmp z))).getD
        (find_deck cmp decks v 0 decks.length) []
        = (decks.getD (find_deck cmp decks v 0 decks.length) []).filter (eqvB cmp z) := by
      rw [List.getD_eq_getElem _ [] hmlen, List.getD_eq_getElem _ [] hlt]
      simp
    rw [hgd, List.filter_append]
    by_cases hzv : eqvB cmp z v = true
    · have hdrop : ((decks.map (fun d => d.filter (eqvB cmp z))).drop
          (find_deck cmp decks v 0 decks.length + 1)).flatten = [] := by
        apply List.flatten_eq_nil_iff.mpr
        intro X hX
        rcases List.mem_iff_getElem.mp hX with ⟨j, hj, hXj⟩
        rw [List.getElem_drop] at hXj
        have hq' : find_deck cmp decks v 0 decks.length + 1 + j < decks.length := by
          simp at hj
          omega
        rw [List.getElem_map] at hXj
        rw [← hXj]
        apply List.filter_eq_nil_iff.mpr
        intro u hu
        obtain ⟨eq, heq⟩ := exists_extremum hinv.1 hq'
        have hchain := hinv.2.1 (decks[find_deck cmp decks v 0 decks.length + 1 + j])
          (List.getElem_mem hq')
        have hgd' : decks.getD (find_deck cmp decks v 0 decks.length + 1 + j) []
            = decks[find_deck cmp decks v 0 decks.length + 1 + j] :=
          List.getD_eq_getElem decks [] hq'
        rw [hgd'] at heq
        have hdom := last_dominates hswo _ eq hchain heq u hu
        have hpair := hinv.2.2 (find_deck cmp decks v 0 decks.length)
          (find_deck cmp decks v 0 decks.length + 1 + j) x eq (by omega) hq' hx
          (by rw [hgd']; exact heq)
        have h1 : cmp eq v = true := hswo.le_lt_trans hpair hq
        have h2 : cmp u v = true := hswo.le_lt_trans hdom h1
        have hzv2 : cmp z v = false := by
          have := hzv
          simp [eqvB] at this
          exact this.1
        have h3 : cmp u z = true := hswo.lt_le_trans h2 hzv2
        simp [eqvB, h3]
      rw [hdrop, if_pos hzv]
      have hfv : [v].filter (eqvB cmp z) = [v] := by
        simp [List.filter, hzv]
      rw [hfv]
      simp
    · have hfv : [v].filter (eqvB cmp z) = [] := by
        simp [List.filter]
        cases hb : eqvB cmp z v
        · rfl
        · exact absurd hb hzv
      rw [hfv, if_neg hzv]
      simp
  · rw [insert_elem_eq_new (by omega)]
    rw [List.map_append, List.flatten_append]
    simp only [List.map_cons, List.map_nil, List.flatten_cons, List.flatten_nil]
    by_cases hzv : eqvB cmp z v = true
    · rw [if_pos hzv]
      simp [List.filter, hzv]
    · rw [if_neg hzv]
      have hfv : [v].filter (eqvB cmp z) = [] := by
        simp [List.filter]
        cases hb : eqvB cmp z v
        · rfl
        · exact absurd hb hzv
      simp [hfv]

theorem foldl_insert_filter {cmp : α → α → Bool} (hswo : SWO cmp) (z : α) :
    ∀ (xs : List α) (decks : List (List α)), DInv cmp decks →
      ((xs.foldl (insert_elem cmp) decks).map
          (fun d => d.filter (eqvB cmp z))).flatten
        = (decks.map (fun d => d.filter (eqvB cmp z))).flatten
          ++ xs.filter (eqvB cmp z)
  | [], decks, _ => by simp
  | x :: xs, decks, hinv => by
    rw [List.foldl_cons]
    rw [foldl_insert_filter hswo z xs (insert_elem cmp decks x)
      (DInv_insert hswo hinv x)]
    rw [insert_elem_filter hswo hinv x z]
    rw [List.filter_cons]
    by_cases hzx : eqvB cmp z x = true
    · rw [if_pos hzx, if_pos hzx]
      simp
    · rw [if_neg hzx, if_neg hzx]
      simp

/-- Distribution is stable: for every reference element `z`, the elements
equivalent to `z`, read deck by deck in collection order, appear in exactly
their input order. -/
theorem distribute_filter {cmp : α → α → Bool} (hswo : SWO cmp) (z : α)
    (xs : List α) :
    (((distribute cmp xs).map (fun d => d.filter (eqvB cmp z))).flatten)
      = xs.filter (eqvB cmp z) := by
  simpa using foldl_insert_filter hswo z xs [] (DInv_nil cmp)

theorem pair_merge_filter {cmp : α → α → Bool} (hswo : SWO cmp) (z : α) :
    ∀ (ds : List (List α)), (∀ d ∈ ds, nondecr cmp d) →
      ((pair_merge cmp ds).map (fun d => d.filter (eqvB cmp z))).flatten
        = (ds.map (fun d => d.filter (eqvB cmp z))).flatten
  | [], _ => rfl
  | [d], _ => rfl
  | d1 :: d2 :: rest, h => by
    simp only [pair_merge, List.map_cons, List.flatten_cons]
    rw [list_merge_filter hswo z d1 d2 (h d1 (by simp))]
    rw [pair_merge_filter hswo z rest (fun d' hd' => h d' (by simp [hd']))]
    simp

theorem merge_round_filter {cmp : α → α → Bool} (hswo : SWO cmp) (z : α)
    (ds r : List (List α)) (hr : merge_round cmp ds = some r)
    (hs : ∀ d ∈ ds, nondecr cmp d) :
    (r.map (fun d => d.filter (eqvB cmp z))).flatten
      = (ds.map (fun d => d.filter (eqvB cmp z))).flatten := by
  cases ds with
  | nil => rw [merge_round_nil] at hr; exact absurd hr (by simp)
  | cons d rest =>
    rw [merge_round_cons] at hr
    by_cases h' : rest.length % 2 = 0
    · rw [if_pos h'] at hr
      cases Option.some.inj hr
      simp only [List.map_cons, List.flatten_cons]
      rw [pair_merge_filter hswo z rest (fun e he => hs e (by simp [he]))]
    · rw [if_neg h'] at hr
      cases Option.some.inj hr
      exact pair_merge_filter hswo z (d :: rest) hs

theorem merge_decks_filter {cmp : α → α → Bool} (hswo : SWO cmp) (z : α) :
    ∀ (n : Nat) (ds r : List (List α)), ds.length ≤ n →
      merge_decks cmp ds = some r → (∀ d ∈ ds, nondecr cmp d) →
      (r.map (fun d => d.filter (eqvB cmp z))).flatten
        = (ds.map (fun d => d.filter (eqvB cmp z))).flatten := by
  intro n
  induction n with
  | zero =>
    intro ds r hn hmd _
    have : ds = [] := List.length_eq_zero.mp (by omega)
    subst this
    rw [merge_decks_nil] at hmd
    exact absurd hmd (by simp)
  | succ n ih =>
    intro ds r hn hmd hs
    by_cases h1 : ds.length = 1
    · obtain ⟨d, hd⟩ := List.length_eq_one.mp h1
      subst hd
      rw [merge_decks_one] at hmd
      cases Option.some.inj hmd
      rfl
    · cases ds with
      | nil =>
        rw [merge_decks_nil] at hmd
        exact absurd hmd (by simp)
      | cons d rest =>
        have hr := merge_round_cons cmp d rest
        set r' := if rest.length % 2 = 0 then d :: pair_merge cmp rest
                  else pair_merge cmp (d :: rest) with hr'def
        have hrl := merge_round_some_length cmp (d :: rest) r' hr
        have hlen : 2 ≤ (d :: rest).length := by
          have h1' : (d :: rest).length ≠ 1 := h1
          simp only [List.length_cons] at h1' ⊢
          omega
        rw [merge_decks_step cmp (d :: rest) r' h1 hr] at hmd
        have := ih r' r
          (by simp only [List.length_cons] at hn hrl hlen ⊢; omega) hmd
          (merge_round_sorted hswo (d :: rest) r' hr hs)
        rw [this]
        exact merge_round_filter hswo z (d :: rest) r' hr hs

theorem eqvB_refl {cmp : α → α → Bool} (hswo : SWO cmp) (a : α) :
    eqvB cmp a a = true := by
  simp [eqvB, hswo.irrefl]

theorem filter_eqv_self_nil {cmp : α → α → Bool} (hswo : SWO cmp) {h : α}
    {t : List α} (hs : nondecr cmp (h :: t)) {w : α} (hw : cmp w h = true) :
    (h :: t).filter (eqvB cmp w) = [] := by
  apply List.filter_eq_nil_iff.mpr
  intro u hu
  have hux : cmp u h = false := by
    rcases List.mem_cons.mp hu with h1 | h1
    · subst h1
      exact hswo.irrefl u
    · exact (List.pairwise_cons.mp (nondecr_pairwise hswo hs)).1 u h1
  have : cmp w u = true := hswo.lt_le_trans hw hux
  simp [eqvB, this]

/-- Two sorted sequences with the same equivalence-class contents, each
class in the same order, are equal: sortedness plus stability determines the
output uniquely. -/
theorem sorted_eq_of_filters {cmp : α → α → Bool} (hswo : SWO cmp) :
    ∀ (out1 out2 : List α), nondecr cmp out1 → nondecr cmp out2 →
      (∀ z, out1.filter (eqvB cmp z) = out2.filter (eqvB cmp z)) →
      out1 = out2
  | [], [], _, _, _ => rfl
  | [], h2 :: t2, _, _, hf => by
    have := hf h2
    rw [List.filter_nil] at this
    rw [List.filter_cons_of_pos (eqvB_refl hswo h2)] at this
    exact absurd this (by simp)
  | h1 :: t1, [], _, _, hf => by
    have := hf h1
    rw [List.filter_nil] at this
    rw [List.filter_cons_of_pos (eqvB_refl hswo h1)] at this
    exact absurd this (by simp)
  | h1 :: t1, h2 :: t2, hs1, hs2, hf => by
    have h12 : cmp h1 h2 = false := by
      cases hc : cmp h1 h2
      · rfl
      · have hnil := filter_eqv_self_nil hswo hs2 hc
        have := hf h1
        rw [List.filter_cons_of_pos (eqvB_refl hswo h1), hnil] at this
        exact absurd this (by simp)
    have h21 : cmp h2 h1 = false := by
      cases hc : cmp h2 h1
      · rfl
      · have hnil := filter_eqv_self_nil hswo hs1 hc
        have := hf h2
        rw [List.filter_cons_of_pos (eqvB_refl hswo h2), hnil] at this
        exact absurd this.symm (by simp)
    have heqv : eqvB cmp h1 h2 = true := by simp [eqvB, h12, h21]
    have hmain := hf h1
    rw [List.filter_cons_of_pos (eqvB_refl hswo h1),
        List.filter_cons_of_pos heqv] at hmain
    have hh : h1 = h2 := (List.cons.injEq _ _ _ _ ▸ hmain).1
    subst hh
    have htail : ∀ z, t1.filter (eqvB cmp z) = t2.filter (eqvB cmp z) := by
      intro z
      have := hf z
      by_cases hz : eqvB cmp z h1 = true
      · rw [List.filter_cons_of_pos hz, List.filter_cons_of_pos hz] at this
        exact (List.cons.injEq _ _ _ _ ▸ this).2
      · rw [List.filter_cons_of_neg hz, List.filter_cons_of_neg hz] at this
        exact this
    have htl := sorted_eq_of_filters hswo t1 t2 (List.chain'_cons'.mp hs1).2
      (List.chain'_cons'.mp hs2).2 htail
    rw [htl]

theorem patience_sort_filter {cmp : α → α → Bool} (hswo : SWO cmp) (z : α)
    (xs out : List α) (hsome : patience_sort cmp xs = some out) :
    out.filter (eqvB cmp z) = xs.filter (eqvB cmp z) := by
  have hne : xs ≠ [] := by
    intro h
    subst h
    rw [patience_sort_nil_none] at hsome
    exact absurd hsome (by simp)
  obtain ⟨d, hd, hperm, hsort⟩ := merge_decks_spec hswo
    (distribute cmp xs).length (distribute cmp xs) (by omega)
    (distribute_ne_nil cmp xs hne) (distribute_decks_nondecr hswo xs)
  have hout : out = d := by
    rw [patience_sort, hd] at hsome
    exact (Option.some.inj hsome).symm
  rw [hout]
  have h1 := merge_decks_filter hswo z (distribute cmp xs).length
    (distribute cmp xs) [d] (by omega) hd (distribute_decks_nondecr hswo xs)
  have h2 := distribute_filter hswo z xs
  rw [h2] at h1
  simpa using h1

/-- Sorting an already-sorted non-empty sequence returns it unchanged. -/
theorem sort_of_sorted {cmp : α → α → Bool} (hswo : SWO cmp) (xs : List α)
    (hne : xs ≠ []) (hs : nondecr cmp xs) :
    patience_sort cmp xs = some xs := by
  obtain ⟨out, hsome, _, hperm, hsort⟩ := sort_spec hswo xs hne
  have : out = xs := sorted_eq_of_filters hswo out xs hsort hs
    (fun z => patience_sort_filter hswo z xs out hsome)
  rw [hsome, this]

/-- Composing the sort with itself changes nothing: the second run receives
a sorted sequence and returns it unchanged. -/
theorem sort_sort {cmp : α → α → Bool} (hswo : SWO cmp) (xs : List α) :
    (patience_sort cmp xs).bind (patience_sort cmp) = patience_sort cmp xs := by
  cases hxs : patience_sort cmp xs with
  | none => rfl
  | some out =>
    have hne : xs ≠ [] := by
      intro h
      subst h
      rw [patience_sort_nil_none] at hxs
      exact absurd hxs (by simp)
    obtain ⟨out', hsome, _, hperm, hsort⟩ := sort_spec hswo xs hne
    have ho : out = out' := by
      rw [hxs] at hsome
      exact Option.some.inj hsome
    have houtne : out' ≠ [] := by
      intro h
      rw [h] at hperm
      exact hne (List.Perm.eq_nil hperm.symm)
    simp only [Option.some_bind]
    rw [ho]
    exact sort_of_sorted hswo out' houtne hsort

/-- Boolean adjacent-chain test, used to make subsequence properties
computable. -/
def chainB (r : α → α → Bool) : List α → Bool
  | [] => true
  | [_] => true
  | a :: b :: l => r a b && chainB r (b :: l)

theorem chainB_iff (r : α → α → Bool) :
    ∀ l : List α, chainB r l = true ↔ List.Chain' (fun a b => r a b = true) l
  | [] => by simp [chainB]
  | [a] => by simp [chainB]
  | a :: b :: l => by
    rw [chainB, Bool.and_eq_true, chainB_iff r (b :: l)]
    constructor
    · intro ⟨h1, h2⟩
      exact List.chain'_cons.mpr ⟨h1, h2⟩
    · intro h
      exact ⟨(List.chain'_cons.mp h).1, (List.chain'_cons.mp h).2⟩

/-- Modelled from the spec: the length of the longest non-increasing
subsequence of the input under the comparator (each next element not
strictly above its predecessor). -/
def lnis (cmp : α → α → Bool) (xs : List α) : Nat :=
  ((xs.sublists.filter (fun l => chainB (fun a b => !cmp a b) l)).map
    List.length).foldr max 0

/-- Modelled from the spec: the length of the longest strictly-decreasing
subsequence of the input under the comparator. -/
def lsds (cmp : α → α → Bool) (xs : List α) : Nat :=
  ((xs.sublists.filter (fun l => chainB (fun a b => cmp b a) l)).map
    List.length).foldr max 0

/-- Modelled from the spec: `xs` can be partitioned into `k` subsequences
("runs"), each strictly increasing under the comparator; the partition is
given by a colouring of the positions. -/
def Partitionable (cmp : α → α → Bool) (xs : List α) (k : Nat) : Prop :=
  ∃ cs : List Nat, cs.length = xs.length ∧ (∀ c ∈ cs, c < k) ∧
    ∀ j, List.Chain' (fun a b => cmp a b = true)
      (((xs.zip cs).filter (fun p => p.2 == j)).map Prod.fst)

theorem le_foldr_max : ∀ (l : List Nat) (a : Nat), a ∈ l → a ≤ l.foldr max 0
  | [], a, ha => by simp at ha
  | b :: l, a, ha => by
    rw [List.foldr_cons]
    rcases List.mem_cons.mp ha with h | h
    · subst h
      exact Nat.le_max_left _ _
    · exact Nat.le_trans (le_foldr_max l a h) (Nat.le_max_right _ _)

theorem foldr_max_le : ∀ (l : List Nat) (b : Nat), (∀ a ∈ l, a ≤ b) →
    l.foldr max 0 ≤ b
  | [], b, _ => by simp
  | a :: l, b, h => by
    rw [List.foldr_cons]
    exact Nat.max_le.mpr ⟨h a (by simp),
      foldr_max_le l b (fun x hx => h x (by simp [hx]))⟩

/-- Certificate invariant for the lower bound on the pile count: after any
number of insertions, every deck index carries a non-increasing subsequence
of the processed input, one element per deck up to that index, ending in
that deck's extremum. -/
def ChainInv (cmp : α → α → Bool) (processed : List α)
    (decks : List (List α)) : Prop :=
  ∀ i, i < decks.length → ∃ c x, c.Sublist processed ∧
    List.Chain' (fun a b => cmp a b = false) c ∧ c.length = i + 1 ∧
    c.getLast? = some x ∧ (decks.getD i []).getLast? = some x

theorem ChainInv_insert {cmp : α → α → Bool} (hswo : SWO cmp)
    {processed : List α} {decks : List (List α)} (hinv : DInv cmp decks)
    (hci : ChainInv cmp processed decks) (v : α) :
    ChainInv cmp (processed ++ [v]) (insert_elem cmp decks v) := by
  have hrange := find_deck_range cmp decks v decks.length 0 decks.length
    (by omega) (by omega)
  have hleft := find_deck_leftmost cmp decks v decks.length 0 decks.length
    (by omega) (by omega) (qualifies_mono hswo hinv v)
  have hext : ∀ i, i < decks.length →
      (i + 1 = find_deck cmp decks v 0 decks.length ∨
        (i + 1 = decks.length ∧
          find_deck cmp decks v 0 decks.length = decks.length)) →
      ∃ c, c.Sublist (processed ++ [v]) ∧
        List.Chain' (fun a b => cmp a b = false) c ∧ c.length = i + 2 ∧
        c.getLast? = some v := by
    intro i hi hcase
    obtain ⟨c, x, hsub, hchain, hlen, hclast, hdlast⟩ := hci i hi
    have hq : qualifies cmp decks i v = false := by
      rcases hcase with h | ⟨h, hfe⟩
      · exact hleft i (by omega) (by omega)
      · exact hleft i (by omega) (by omega)
    rw [qualifies_eq_of_getLast hdlast] at hq
    refine ⟨c ++ [v], ?_, ?_, ?_, ?_⟩
    · exact List.Sublist.append hsub (List.Sublist.refl [v])
    · rw [List.chain'_append]
      refine ⟨hchain, by simp, ?_⟩
      intro a ha b hb
      simp at hb
      subst hb
      rw [hclast] at ha
      simp at ha
      subst ha
      exact hq
    · simp [hlen]
    · simp
  intro i hi'
  by_cases hlt : find_deck cmp decks v 0 decks.length < decks.length
  · rw [insert_elem_eq_found rfl hlt] at hi' ⊢
    rw [List.length_set] at hi'
    by_cases hip : i = find_deck cmp decks v 0 decks.length
    · have hgd : ((decks.set (find_deck cmp decks v 0 decks.length)
          (decks.getD (find_deck cmp decks v 0 decks.length) [] ++ [v])).getD
            i []).getLast? = some v := by
        rw [hip, getD_set_self hlt _]
        exact List.getLast?_concat _
      rcases Nat.eq_zero_or_pos i with h0 | h0
      · exact ⟨[v], v, List.sublist_append_right processed [v], by simp,
          by simp [h0], by simp, hgd⟩
      · obtain ⟨c, hsub, hchain, hlen, hclast⟩ := hext (i - 1) (by omega)
          (Or.inl (by omega))
        exact ⟨c, v, hsub, hchain, by omega, hclast, hgd⟩
    · obtain ⟨c, x, hsub, hchain, hlen, hclast, hdlast⟩ := hci i hi'
      refine ⟨c, x, hsub.trans (List.sublist_append_left processed [v]),
        hchain, hlen, hclast, ?_⟩
      rw [getD_set_ne (by omega) _]
      exact hdlast
  · have hfe : find_deck cmp decks v 0 decks.length = decks.length := by omega
    rw [insert_elem_eq_new hfe] at hi' ⊢
    simp at hi'
    by_cases hip : i = decks.length
    · have hgd : ((decks ++ [[v]]).getD i []).getLast? = some v := by
        rw [hip, getD_append_last]
        rfl
      rcases Nat.eq_zero_or_pos decks.length with h0 | h0
      · exact ⟨[v], v, List.sublist_append_right processed [v], by simp,
          by simp [hip, h0], by simp, hgd⟩
      · obtain ⟨c, hsub, hchain, hlen, hclast⟩ := hext (decks.length - 1)
          (by omega) (Or.inr ⟨by omega, hfe⟩)
        exact ⟨c, v, hsub, hchain, by omega, hclast, hgd⟩
    · obtain ⟨c, x, hsub, hchain, hlen, hclast, hdlast⟩ := hci i (by omega)
      refine ⟨c, x, hsub.trans (List.sublist_append_left processed [v]),
        hchain, hlen, hclast, ?_⟩
      rw [getD_append_left (by omega)]
      exact hdlast

theorem foldl_chaininv {cmp : α → α → Bool} (hswo : SWO cmp) :
    ∀ (xs processed : List α) (decks : List (List α)), DInv cmp decks →
      ChainInv cmp processed decks →
      ChainInv cmp (processed ++ xs) (xs.foldl (insert_elem cmp) decks)
  | [], processed, decks, _, hci => by simpa using hci
  | x :: xs, processed, decks, hinv, hci => by
    rw [List.foldl_cons]
    have h1 := foldl_chaininv hswo xs (processed ++ [x])
      (insert_elem cmp decks x) (DInv_insert hswo hinv x)
      (ChainInv_insert hswo hinv hci x)
    simpa using h1

theorem distribute_chaininv {cmp : α → α → Bool} (hswo : SWO cmp)
    (xs : List α) : ChainInv cmp xs (distribute cmp xs) := by
  have h := foldl_chaininv hswo xs [] [] (DInv_nil cmp) (by intro i hi; simp at hi)
  simpa using h

theorem noninc_pairwise {cmp : α → α → Bool} (hswo : SWO cmp) :
    ∀ {l : List α}, List.Chain' (fun a b => cmp a b = false) l →
      List.Pairwise (fun a b => cmp a b = false) l
  | [], _ => by simp
  | x :: xs, h => by
    rcases List.chain'_cons'.mp h with ⟨hx, hxs⟩
    refine List.pairwise_cons.mpr ⟨?_, noninc_pairwise hswo hxs⟩
    intro u hu
    cases xs with
    | nil => simp at hu
    | cons y ys =>
      have hxy : cmp x y = false := hx y (by simp)
      rcases List.mem_cons.mp hu with h1 | h1
      · subst h1
        exact hxy
      · have hp := noninc_pairwise hswo hxs
        have hyu : cmp y u = false := (List.pairwise_cons.mp hp).1 u h1
        exact hswo.negtrans hxy hyu

/-- Covering invariant for the upper bound on the pile count: every
non-empty non-increasing subsequence of the processed input is covered by a
deck whose index is at least the subsequence length minus one, and whose
extremum is not below the subsequence's last element. -/
def CoverInv (cmp : α → α → Bool) (processed : List α)
    (decks : List (List α)) : Prop :=
  ∀ c : List α, c.Sublist processed →
    List.Chain' (fun a b => cmp a b = false) c → c ≠ [] →
    ∃ q y z, q < decks.length ∧ c.length ≤ q + 1 ∧ c.getLast? = some y ∧
      (decks.getD q []).getLast? = some z ∧ cmp z y = false

theorem sublist_snoc_cases {c : List α} {l : List α} {v : α}
    (h : c.Sublist (l ++ [v])) :
    c.Sublist l ∨ ∃ c', c = c' ++ [v] ∧ c'.Sublist l := by
  rcases List.sublist_append_iff.mp h with ⟨r1, r2, hc, h1, h2⟩
  rcases List.sublist_singleton.mp h2 with h3 | h3
  · subst h3
    left
    rw [hc, List.append_nil]
    exact h1
  · subst h3
    right
    exact ⟨r1, hc, h1⟩

theorem CoverInv_insert {cmp : α → α → Bool} (hswo : SWO cmp)
    {processed : List α} {decks : List (List α)} (hinv : DInv cmp decks)
    (hcov : CoverInv cmp processed decks) (v : α) :
    CoverInv cmp (processed ++ [v]) (insert_elem cmp decks v) := by
  have hrange := find_deck_range cmp decks v decks.length 0 decks.length
    (by omega) (by omega)
  -- facts about the placement index
  by_cases hlt : find_deck cmp decks v 0 decks.length < decks.length
  all_goals intro c hc hchain hne
  · -- the element lands on the existing deck at the found index
    have hq := find_deck_lt_qualifies cmp decks v decks.length 0 decks.length
      (by omega) (by omega) hlt
    obtain ⟨x, hx⟩ := exists_extremum hinv.1 hlt
    rw [qualifies_eq_of_getLast hx] at hq
    rw [insert_elem_eq_found rfl hlt]
    rcases sublist_snoc_cases hc with hcl | ⟨c', rfl, hc'⟩
    · -- the subsequence avoids the new element
      obtain ⟨q, y, z, hqlen, hclen, hcy, hdz, hzy⟩ := hcov c hcl hchain hne
      by_cases hqi : q = find_deck cmp decks v 0 decks.length
      · -- the covering deck is the one that grew; its extremum only grew
        refine ⟨q, y, v, by simpa using hqlen, hclen, hcy, ?_, ?_⟩
        · rw [hqi, getD_set_self hlt _]
          exact List.getLast?_concat _
        · rw [hqi] at hdz
          rw [hx] at hdz
          have hzx : x = z := Option.some.inj hdz
          rw [← hzx] at hzy
          cases hvy : cmp v y
          · rfl
          · have := hswo.trans hq hvy
            rw [this] at hzy
            exact absurd hzy (by simp)
      · refine ⟨q, y, z, by simpa using hqlen, hclen, hcy, ?_, hzy⟩
        rw [getD_set_ne (by omega) _]
        exact hdz
    · -- the subsequence ends with the new element
      by_cases hc'nil : c' = []
      · subst hc'nil
        refine ⟨find_deck cmp decks v 0 decks.length, v, v,
          by simpa using hlt, by simp, by simp, ?_, hswo.irrefl v⟩
        rw [getD_set_self hlt _]
        exact List.getLast?_concat _
      · have hc'ne : c' ≠ [] := hc'nil
        have hchain' : List.Chain' (fun a b => cmp a b = false) c' :=
          (List.chain'_append.mp hchain).1
        obtain ⟨q, y, z, hqlen, hclen, hcy, hdz, hzy⟩ :=
          hcov c' hc' hchain' hc'ne
        have hyvv : cmp y v = false := by
          have hlastpair := (List.chain'_append.mp hchain).2.2
          exact hlastpair y hcy v (by simp)
        -- the placement index exceeds every covering index
        have hqp : q < find_deck cmp decks v 0 decks.length := by
          by_contra hqp
          have hple : find_deck cmp decks v 0 decks.length ≤ q := by omega
          have hzv : cmp z v = false := hswo.negtrans hzy hyvv
          rcases Nat.eq_or_lt_of_le hple with heq | hqlt
          · rw [← heq] at hdz
            rw [hx] at hdz
            have hxz : x = z := Option.some.inj hdz
            rw [← hxz] at hzv
            rw [hzv] at hq
            exact absurd hq (by simp)
          · obtain ⟨zq, hzq⟩ := exists_extremum hinv.1 hqlen
            have hpair := hinv.2.2 (find_deck cmp decks v 0 decks.length) q
              x zq hqlt hqlen hx hzq
            have hzzq : zq = z := by
              rw [hzq] at hdz
              exact Option.some.inj hdz
            rw [hzzq] at hpair
            have h2 : cmp x y = false := hswo.negtrans hpair hzy
            have h3 : cmp x v = false := hswo.negtrans h2 hyvv
            rw [h3] at hq
            exact absurd hq (by simp)
        refine ⟨find_deck cmp decks v 0 decks.length, v, v,
          by simpa using hlt, ?_, ?_, ?_, hswo.irrefl v⟩
        · rw [List.length_append]
          simp
          omega
        · exact List.getLast?_concat _
        · rw [getD_set_self hlt _]
          exact List.getLast?_concat _
  · -- a new deck is appended at the end
    have hfe : find_deck cmp decks v 0 decks.length = decks.length := by omega
    rw [insert_elem_eq_new hfe]
    rcases sublist_snoc_cases hc with hcl | ⟨c', rfl, hc'⟩
    · obtain ⟨q, y, z, hqlen, hclen, hcy, hdz, hzy⟩ := hcov c hcl hchain hne
      refine ⟨q, y, z, by simp; omega, hclen, hcy, ?_, hzy⟩
      rw [getD_append_left (by omega)]
      exact hdz
    · by_cases hc'nil : c' = []
      · subst hc'nil
        refine ⟨decks.length, v, v, by simp, by simp, by simp, ?_,
          hswo.irrefl v⟩
        rw [getD_append_last]
        rfl
      · have hc'ne : c' ≠ [] := hc'nil
        have hchain' : List.Chain' (fun a b => cmp a b = false) c' :=
          (List.chain'_append.mp hchain).1
        obtain ⟨q, y, z, hqlen, hclen, hcy, hdz, hzy⟩ :=
          hcov c' hc' hchain' hc'ne
        refine ⟨decks.length, v, v, by simp, ?_, ?_, ?_, hswo.irrefl v⟩
        · rw [List.length_append]
          simp
          omega
        · exact List.getLast?_concat _
        · rw [getD_append_last]
          rfl

theorem foldl_coverinv {cmp : α → α → Bool} (hswo : SWO cmp) :
    ∀ (xs processed : List α) (decks : List (List α)), DInv cmp decks →
      CoverInv cmp processed decks →
      CoverInv cmp (processed ++ xs) (xs.foldl (insert_elem cmp) decks)
  | [], processed, decks, _, hcov => by simpa using hcov
  | x :: xs, processed, decks, hinv, hcov => by
    rw [List.foldl_cons]
    have h1 := foldl_coverinv hswo xs (processed ++ [x])
      (insert_elem cmp decks x) (DInv_insert hswo hinv x)
      (CoverInv_insert hswo hinv hcov x)
    simpa using h1

theorem distribute_coverinv {cmp : α → α → Bool} (hswo : SWO cmp)
    (xs : List α) : CoverInv cmp xs (distribute cmp xs) := by
  have h := foldl_coverinv hswo xs [] [] (DInv_nil cmp) ?_
  · simpa using h
  · intro c hc _ hne
    rw [List.sublist_nil] at hc
    exact absurd hc hne

theorem nonincB_chain_iff (cmp : α → α → Bool) (l : List α) :
    chainB (fun a b => !cmp a b) l = true ↔
      List.Chain' (fun a b => cmp a b = false) l := by
  rw [chainB_iff]
  constructor
  · intro h
    exact h.imp (fun hab => by simpa using hab)
  · intro h
    exact h.imp (fun hab => by simpa using hab)

/-- The number of piles equals the length of the longest non-increasing
subsequence of the input. -/
theorem distribute_length_eq_lnis {cmp : α → α → Bool} (hswo : SWO cmp)
    (xs : List α) : (distribute cmp xs).length = lnis cmp xs := by
  apply Nat.le_antisymm
  · -- the certificate chain at the last deck is a non-increasing subsequence
    rcases Nat.eq_zero_or_pos (distribute cmp xs).length with h0 | h0
    · omega
    · obtain ⟨c, x, hsub, hchain, hlen, _, _⟩ :=
        distribute_chaininv hswo xs ((distribute cmp xs).length - 1) (by omega)
      have hmem : c ∈ xs.sublists.filter
          (fun l => chainB (fun a b => !cmp a b) l) := by
        rw [List.mem_filter, List.mem_sublists]
        exact ⟨hsub, (nonincB_chain_iff cmp c).mpr hchain⟩
      have : c.length ≤ lnis cmp xs := by
        apply le_foldr_max
        exact List.mem_map.mpr ⟨c, hmem, rfl⟩
      omega
  · -- every non-increasing subsequence is covered by a deck index
    apply foldr_max_le
    intro a ha
    rcases List.mem_map.mp ha with ⟨l, hl, rfl⟩
    rw [List.mem_filter, List.mem_sublists] at hl
    rcases hl with ⟨hsub, hchainb⟩
    have hchain := (nonincB_chain_iff cmp l).mp hchainb
    cases hlnil : l with
    | nil => simp
    | cons a t =>
      rw [← hlnil]
      have hne : l ≠ [] := by rw [hlnil]; simp
      obtain ⟨q, y, z, hq, hle, _, _, _⟩ :=
        distribute_coverinv hswo xs l hsub hchain hne
      omega

/-- Distribution instrumented with the pile index chosen for each element,
in input order.  Its first component is exactly `distribute`. -/
def insertC (cmp : α → α → Bool) (st : List (List α) × List Nat) (v : α) :
    List (List α) × List Nat :=
  (insert_elem cmp st.1 v, st.2 ++ [(get_deck_pointer cmp st.1 v).1])

theorem foldl_insertC_fst (cmp : α → α → Bool) :
    ∀ (xs : List α) (decks : List (List α)) (cs : List Nat),
      (xs.foldl (insertC cmp) (decks, cs)).1 = xs.foldl (insert_elem cmp) decks
  | [], decks, cs => rfl
  | x :: xs, decks, cs => by
    rw [List.foldl_cons, List.foldl_cons]
    exact foldl_insertC_fst cmp xs (insert_elem cmp decks x) _

theorem getD_of_le (l : List (List α)) (j : Nat) (h : l.length ≤ j) :
    l.getD j [] = [] := by
  rw [List.getD_eq_getElem?_getD, List.getElem?_eq_none (by omega)]
  rfl

/-- Relation between the colouring built by `insertC` and the decks: the
elements coloured `j`, read in input order, are exactly deck `j`. -/
def ClassInv (cmp : α → α → Bool) (processed : List α)
    (decks : List (List α)) (cs : List Nat) : Prop :=
  cs.length = processed.length ∧ (∀ c ∈ cs, c < decks.length) ∧
  ∀ j, ((processed.zip cs).filter (fun p => p.2 == j)).map Prod.fst
    = decks.getD j []

theorem ClassInv_insert {cmp : α → α → Bool} {processed : List α}
    {decks : List (List α)} {cs : List Nat}
    (hci : ClassInv cmp processed decks cs) (v : α) :
    ClassInv cmp (processed ++ [v]) (insert_elem cmp decks v)
      (cs ++ [(get_deck_pointer cmp decks v).1]) := by
  obtain ⟨hlen, hbound, hclass⟩ := hci
  have hzip : (processed ++ [v]).zip (cs ++ [(get_deck_pointer cmp decks v).1])
      = processed.zip cs ++ [(v, (get_deck_pointer cmp decks v).1)] := by
    rw [List.zip_append (by omega)]
    rfl
  have hrange := find_deck_range cmp decks v decks.length 0 decks.length
    (by omega) (by omega)
  by_cases hlt : find_deck cmp decks v 0 decks.length < decks.length
  · have hp : (get_deck_pointer cmp decks v).1
        = find_deck cmp decks v 0 decks.length := by
      rw [get_deck_pointer, if_pos (by omega)]
    rw [insert_elem_eq_found rfl hlt]
    refine ⟨by simp [hlen], ?_, ?_⟩
    · intro c hc
      rcases List.mem_append.mp hc with h | h
      · rw [List.length_set]
        exact hbound c h
      · simp at h
        subst h
        rw [List.length_set, hp]
        exact hlt
    · intro j
      rw [hzip, List.filter_append, List.map_append, hclass j]
      by_cases hj : j = find_deck cmp decks v 0 decks.length
      · subst hj
        rw [getD_set_self hlt _]
        simp [hp]
      · rw [getD_set_ne (by omega) _]
        have : ((v, (get_deck_pointer cmp decks v).1) :: []).filter
            (fun p => p.2 == j) = [] := by
          simp [hp]
          omega
        rw [this]
        simp
  · have hfe : find_deck cmp decks v 0 decks.length = decks.length := by omega
    have hp : (get_deck_pointer cmp decks v).1 = decks.length := by
      rw [get_deck_pointer, if_neg (by omega)]
    rw [insert_elem_eq_new hfe]
    refine ⟨by simp [hlen], ?_, ?_⟩
    · intro c hc
      rcases List.mem_append.mp hc with h | h
      · simp
        have := hbound c h
        omega
      · simp at h
        subst h
        rw [hp]
        simp
    · intro j
      rw [hzip, List.filter_append, List.map_append, hclass j]
      by_cases hj : j = decks.length
      · subst hj
        rw [getD_append_last]
        rw [getD_of_le decks _ (by omega)]
        simp [hp]
      · rcases Nat.lt_or_ge j decks.length with hjlt | hjge
        · rw [getD_append_left hjlt]
          have : ((v, (get_deck_pointer cmp decks v).1) :: []).filter
              (fun p => p.2 == j) = [] := by
            simp [hp]
            omega
          rw [this]
          simp
        · rw [getD_of_le decks _ (by omega), getD_of_le _ _ (by simp; omega)]
          have : ((v, (get_deck_pointer cmp decks v).1) :: []).filter
              (fun p => p.2 == j) = [] := by
            simp [hp]
            omega
          rw [this]
          simp

theorem foldl_classinv (cmp : α → α → Bool) :
    ∀ (xs processed : List α) (decks : List (List α)) (cs : List Nat),
      ClassInv cmp processed decks cs →
      ClassInv cmp (processed ++ xs) (xs.foldl (insert_elem cmp) decks)
        ((xs.foldl (insertC cmp) (decks, cs)).2)
  | [], processed, decks, cs, hci => by simpa using hci
  | x :: xs, processed, decks, cs, hci => by
    rw [List.foldl_cons, List.foldl_cons]
    have h1 := foldl_classinv cmp xs (processed ++ [x])
      (insert_elem cmp decks x) (cs ++ [(get_deck_pointer cmp decks x).1])
      (ClassInv_insert hci x)
    simpa [insertC] using h1

theorem distribute_classinv (cmp : α → α → Bool) (xs : List α) :
    ClassInv cmp xs (distribute cmp xs) ((xs.foldl (insertC cmp) ([], [])).2) := by
  have h := foldl_classinv cmp xs [] [] [] ⟨rfl, by simp, by simp⟩
  simpa using h

/-- The decks are a genuine partition of the input into strictly increasing
runs, one run per pile. -/
theorem distribute_partitionable {cmp : α → α → Bool} (hswo : SWO cmp)
    (xs : List α) : Partitionable cmp xs (distribute cmp xs).length := by
  obtain ⟨hlen, hbound, hclass⟩ := distribute_classinv cmp xs
  refine ⟨(xs.foldl (insertC cmp) ([], [])).2, hlen, hbound, ?_⟩
  intro j
  rw [hclass j]
  rcases Nat.lt_or_ge j (distribute cmp xs).length with hj | hj
  · have hmem : (distribute cmp xs).getD j [] ∈ distribute cmp xs := by
      rw [List.getD_eq_getElem _ [] hj]
      exact List.getElem_mem hj
    exact (distribute_DInv hswo xs).2.1 _ hmem
  · rw [getD_of_le _ _ hj]
    simp

theorem zip_sublist_lift {c xs : List α} (h : c.Sublist xs) :
    ∀ cs : List Nat, cs.length = xs.length →
      ∃ cp : List (α × Nat), cp.Sublist (xs.zip cs) ∧ cp.map Prod.fst = c := by
  induction h with
  | slnil =>
    intro cs hcs
    exact ⟨[], by simp, rfl⟩
  | cons a h ih =>
    intro cs hcs
    cases cs with
    | nil => simp at hcs
    | cons c0 cs' =>
      obtain ⟨cp, hsub, hmap⟩ := ih cs' (by simpa using hcs)
      exact ⟨cp, hsub.trans (List.sublist_cons_self _ _), hmap⟩
  | cons₂ a h ih =>
    intro cs hcs
    cases cs with
    | nil => simp at hcs
    | cons c0 cs' =>
      obtain ⟨cp, hsub, hmap⟩ := ih cs' (by simpa using hcs)
      refine ⟨(a, c0) :: cp, ?_, by simp [hmap]⟩
      exact List.Sublist.cons₂ _ hsub

theorem colorclass_pairwise {cmp : α → α → Bool} :
    ∀ Z : List (α × Nat),
      (∀ j, List.Pairwise (fun a b => cmp a b = true)
        ((Z.filter (fun p => p.2 == j)).map Prod.fst)) →
      List.Pairwise (fun p q : α × Nat => p.2 = q.2 → cmp p.1 q.1 = true) Z
  | [], _ => by simp
  | p :: Z', h => by
    refine List.pairwise_cons.mpr ⟨?_, ?_⟩
    · intro q hq heq
      have hfilter : ((p :: Z').filter (fun r => r.2 == p.2)).map Prod.fst
          = p.1 :: ((Z'.filter (fun r => r.2 == p.2)).map Prod.fst) := by
        rw [List.filter_cons_of_pos (by simp)]
        rfl
      have hp := h p.2
      rw [hfilter] at hp
      have hq1 : q.1 ∈ (Z'.filter (fun r => r.2 == p.2)).map Prod.fst := by
        apply List.mem_map.mpr
        refine ⟨q, ?_, rfl⟩
        rw [List.mem_filter]
        exact ⟨hq, by simp [heq]⟩
      exact (List.pairwise_cons.mp hp).1 q.1 hq1
    · apply colorclass_pairwise Z'
      intro j
      have hp := h j
      by_cases hj : p.2 = j
      · rw [List.filter_cons_of_pos (by simp [hj])] at hp
        exact (List.pairwise_cons.mp hp).2
      · rw [List.filter_cons_of_neg (by simp [hj])] at hp
        exact hp

theorem nodup_lt_length_le {l : List Nat} (hnd : l.Nodup) {k : Nat}
    (hb : ∀ a ∈ l, a < k) : l.length ≤ k := by
  have h1 : l.toFinset.card = l.length := List.toFinset_card_of_nodup hnd
  have h2 : l.toFinset ⊆ Finset.range k := by
    intro a ha
    rw [List.mem_toFinset] at ha
    rw [Finset.mem_range]
    exact hb a ha
  have h3 := Finset.card_le_card h2
  rw [h1, Finset.card_range] at h3
  exact h3

/-- Pigeonhole: a partition into `k` strictly increasing runs bounds every
non-increasing subsequence by `k`, because such a subsequence meets each
run at most once. -/
theorem partitionable_chain_le {cmp : α → α → Bool} (hswo : SWO cmp)
    {xs : List α} {k : Nat} (hpart : Partitionable cmp xs k) :
    ∀ c : List α, c.Sublist xs →
      List.Chain' (fun a b => cmp a b = false) c → c.length ≤ k := by
  obtain ⟨cs, hlen, hbound, hclass⟩ := hpart
  intro c hsub hchain
  obtain ⟨cp, hcp, hmap⟩ := zip_sublist_lift hsub cs hlen
  have hP1 : List.Pairwise (fun p q : α × Nat => p.2 = q.2 →
      cmp p.1 q.1 = true) (xs.zip cs) :=
    colorclass_pairwise (xs.zip cs) (fun j => incr_pairwise hswo (hclass j))
  have hP1' := hP1.sublist hcp
  have hP2 : List.Pairwise (fun p q : α × Nat => cmp p.1 q.1 = false) cp := by
    have hc := noninc_pairwise hswo hchain
    rw [← hmap] at hc
    exact (List.pairwise_map.mp hc)
  have hne : List.Pairwise (fun p q : α × Nat => p.2 ≠ q.2) cp := by
    have hand := hP1'.and hP2
    apply hand.imp
    intro p q hpq heq
    have := hpq.1 heq
    rw [this] at hpq
    exact absurd hpq.2 (by simp)
  have hnd : (cp.map Prod.snd).Nodup := List.pairwise_map.mpr hne
  have hbnd : ∀ a ∈ cp.map Prod.snd, a < k := by
    intro a ha
    rcases List.mem_map.mp ha with ⟨p, hp, rfl⟩
    have hmem : p ∈ xs.zip cs := hcp.subset hp
    exact hbound p.2 (List.of_mem_zip hmem).2
  have := nodup_lt_length_le hnd hbnd
  have hlc : c.length = cp.length := by
    rw [← hmap]
    simp
  rw [hlc]
  simpa using this

/-- Minimality of the pile count among all partitions into strictly
increasing runs. -/
theorem distribute_length_min {cmp : α → α → Bool} (hswo : SWO cmp)
    (xs : List α) :
    ∀ k, Partitionable cmp xs k → (distribute cmp xs).length ≤ k := by
  intro k hpart
  rcases Nat.eq_zero_or_pos (distribute cmp xs).length with h0 | h0
  · omega
  · obtain ⟨c, x, hsub, hchain, hlen, _, _⟩ :=
      distribute_chaininv hswo xs ((distribute cmp xs).length - 1) (by omega)
    have := partitionable_chain_le hswo hpart c hsub hchain
    omega

/-- C1 counterexample: on the empty input the claim fails — neither variant
produces the (empty) sorted permutation, because `merge_decks` reads
`points[0]` / `storage[0]` out of range on an empty deque (modelled as
`none`). -/
theorem sort_empty_input_cex :
    patience_sort (@default_compare Nat _) [] = none ∧
    patience_sort_cont (@default_compare Nat _) [] = none ∧
    ¬∃ out : List Nat, patience_sort (@default_compare Nat _) [] = some out ∧
      out.Perm [] ∧ nondecr (@default_compare Nat _) out := by
  refine ⟨patience_sort_nil_none _, patience_sort_cont_nil_none _, ?_⟩
  intro ⟨out, hout, _, _⟩
  rw [patience_sort_nil_none] at hout
  exact absurd hout (by simp)

/-- C1 (amended to non-empty inputs): for every non-empty input and every
strict-weak-order comparator, both the contiguous and the linked variant
terminate with the caller's storage holding a permutation of the input
arranged in non-decreasing order under the comparator. -/
theorem sort_correct_nonempty {α : Type} (cmp : α → α → Bool)
    (hswo : SWO cmp) (xs : List α) (hne : xs ≠ []) :
    ∃ out, patience_sort cmp xs = some out ∧
      patience_sort_cont cmp xs = some out ∧
      out.Perm xs ∧ nondecr cmp out :=
  sort_spec hswo xs hne

/-- Witness for C1's theorem at a concrete input. -/
theorem sort_correct_nonempty_witness :
    ∃ out, patience_sort (@default_compare Nat _) [3, 1, 2] = some out ∧
      patience_sort_cont (@default_compare Nat _) [3, 1, 2] = some out ∧
      out.Perm [3, 1, 2] ∧ nondecr (@default_compare Nat _) out :=
  sort_correct_nonempty _ default_compare_SWO [3, 1, 2] (by simp)

/-- C2 counterexample: after inserting the input `[2,1]`, the pile extrema
in collection order are `[2,1]`, which is not non-decreasing under the
comparator: the claim's direction is reversed. -/
theorem extrema_nondecr_cex :
    extrema (distribute (@default_compare Nat _) [2, 1]) = [2, 1] ∧
    ¬ List.Chain' (fun a b => default_compare b a = false)
      (extrema (distribute (@default_compare Nat _) [2, 1])) := by
  have heval : extrema (distribute (@default_compare Nat _) [2, 1]) = [2, 1] := by
    simp [distribute, insert_elem, get_deck_pointer, find_deck, qualifies,
      default_compare, extrema]
  refine ⟨heval, ?_⟩
  rw [heval]
  intro hch
  have := List.chain'_cons.mp hch
  simp [default_compare] at this

/-- C2 (amended): after every single insertion during distribution, the
sequence of pile extrema in collection order is non-increasing under the
comparator (never strictly ascending at an adjacent pair). -/
theorem extrema_noninc_after_insertions {α : Type} (cmp : α → α → Bool)
    (hswo : SWO cmp) (xs : List α) (n : Nat) :
    List.Chain' (fun a b => cmp a b = false)
      (extrema (distribute cmp (xs.take n))) :=
  distribute_extrema_chain hswo (xs.take n)

/-- Witness for C2's amended theorem at a concrete input. -/
theorem extrema_noninc_after_insertions_witness :
    List.Chain' (fun a b => default_compare a b = false)
      (extrema (distribute (@default_compare Nat _) ([2, 1].take 2))) :=
  extrema_noninc_after_insertions _ default_compare_SWO [2, 1] 2

/-- C3: on every state reachable during distribution, the pile locator
either returns the deck whose extremum is strictly less than the element
and largest among all such extrema, or — when no deck's extremum is
strictly less, including the empty collection — allocates a new deck that
is appended at the end and receives the element as its only entry. -/
theorem pile_locator_spec {α : Type} (cmp : α → α → Bool) (hswo : SWO cmp)
    (ys : List α) (val : α) :
    (∃ i x, (get_deck_pointer cmp (distribute cmp ys) val).1 = i ∧
      (get_deck_pointer cmp (distribute cmp ys) val).2 = distribute cmp ys ∧
      i < (distribute cmp ys).length ∧
      ((distribute cmp ys).getD i []).getLast? = some x ∧
      cmp x val = true ∧
      (∀ j y, j < (distribute cmp ys).length →
        ((distribute cmp ys).getD j []).getLast? = some y →
        cmp y val = true → cmp x y = false) ∧
      insert_elem cmp (distribute cmp ys) val
        = (distribute cmp ys).set i ((distribute cmp ys).getD i [] ++ [val])) ∨
    ((∀ j y, j < (distribute cmp ys).length →
        ((distribute cmp ys).getD j []).getLast? = some y →
        cmp y val = false) ∧
      (get_deck_pointer cmp (distribute cmp ys) val).1
        = (distribute cmp ys).length ∧
      (get_deck_pointer cmp (distribute cmp ys) val).2
        = distribute cmp ys ++ [[]] ∧
      insert_elem cmp (distribute cmp ys) val
        = distribute cmp ys ++ [[val]]) :=
  get_deck_pointer_spec hswo (distribute_DInv hswo ys) val

/-- Witness for C3's theorem at a concrete input. -/
theorem pile_locator_spec_witness :
    (∃ i x, (get_deck_pointer (@default_compare Nat _)
        (distribute (@default_compare Nat _) [2, 1]) 3).1 = i ∧
      (get_deck_pointer (@default_compare Nat _)
        (distribute (@default_compare Nat _) [2, 1]) 3).2
        = distribute (@default_compare Nat _) [2, 1] ∧
      i < (distribute (@default_compare Nat _) [2, 1]).length ∧
      ((distribute (@default_compare Nat _) [2, 1]).getD i []).getLast?
        = some x ∧
      default_compare x 3 = true ∧
      (∀ j y, j < (distribute (@default_compare Nat _) [2, 1]).length →
        ((distribute (@default_compare Nat _) [2, 1]).getD j []).getLast?
          = some y →
        default_compare y 3 = true → default_compare x y = false) ∧
      insert_elem (@default_compare Nat _)
          (distribute (@default_compare Nat _) [2, 1]) 3
        = (distribute (@default_compare Nat _) [2, 1]).set i
            ((distribute (@default_compare Nat _) [2, 1]).getD i [] ++ [3])) ∨
    ((∀ j y, j < (distribute (@default_compare Nat _) [2, 1]).length →
        ((distribute (@default_compare Nat _) [2, 1]).getD j []).getLast?
          = some y →
        default_compare y 3 = false) ∧
      (get_deck_pointer (@default_compare Nat _)
        (distribute (@default_compare Nat _) [2, 1]) 3).1
        = (distribute (@default_compare Nat _) [2, 1]).length ∧
      (get_deck_pointer (@default_compare Nat _)
        (distribute (@default_compare Nat _) [2, 1]) 3).2
        = distribute (@default_compare Nat _) [2, 1] ++ [[]] ∧
      insert_elem (@default_compare Nat _)
          (distribute (@default_compare Nat _) [2, 1]) 3
        = distribute (@default_compare Nat _) [2, 1] ++ [[3]]) :=
  pile_locator_spec _ default_compare_SWO [2, 1] 3

/-- C4: the claim is right and the code is wrong.  On empty input the spec
promises empty output with no out-of-range access, but `merge_decks` falls
through its `size == 1` guard and evaluates `points[0]` (contiguous) /
`storage[0]` (linked) on an empty `std::deque`, and
`produce_output_list` then moves `storage[0]`.  The model returns `none`
at exactly those reads. -/
theorem empty_input_merge_out_of_range :
    merge_round (@default_compare Nat _) [] = none ∧
    merge_decks (@default_compare Nat _) [] = none ∧
    patience_sort (@default_compare Nat _) [] = none ∧
    patience_sort_cont (@default_compare Nat _) [] = none :=
  ⟨merge_round_nil _, merge_decks_nil _, patience_sort_nil_none _,
    patience_sort_cont_nil_none _⟩

/-- C5 counterexample: two equal elements produce two piles, not one — the
binary search treats a tie as "does not qualify", so every equal element
opens a fresh pile. -/
theorem all_equal_single_pile_cex :
    distribute (@default_compare Nat _) [5, 5] = [[5], [5]] ∧
    (distribute (@default_compare Nat _) [5, 5]).length ≠ 1 := by
  have heval : distribute (@default_compare Nat _) [5, 5] = [[5], [5]] := by
    simp [distribute, insert_elem, get_deck_pointer, find_deck, qualifies,
      default_compare]
  exact ⟨heval, by rw [heval]; simp⟩

/-- C5 (amended): on non-empty input whose elements are mutually equal
under the comparator, the distribution produces one singleton pile per
element — as many piles as elements — and the output equals the input,
unchanged in value. -/
theorem all_equal_one_pile_per_elem {α : Type} (cmp : α → α → Bool)
    (xs : List α) (hne : xs ≠ [])
    (heq : ∀ a ∈ xs, ∀ b ∈ xs, cmp a b = false) :
    (distribute cmp xs).length = xs.length ∧
      patience_sort cmp xs = some xs :=
  all_equal_sort cmp xs hne heq

/-- Witness for C5's amended theorem at a concrete input. -/
theorem all_equal_one_pile_per_elem_witness :
    (distribute (@default_compare Nat _) [5, 5]).length = 2 ∧
      patience_sort (@default_compare Nat _) [5, 5] = some [5, 5] :=
  all_equal_one_pile_per_elem _ [5, 5] (by simp) (by decide)

/-- C6 counterexample: on `[5,5]` the distribution produces 2 piles, but the
longest strictly-decreasing subsequence has length 1 (and one non-decreasing
run suffices), so the claim's equalities fail: the correct duals are weak,
not strict. -/
theorem pile_count_lsds_cex :
    (distribute (@default_compare Nat _) [5, 5]).length = 2 ∧
    lsds (@default_compare Nat _) [5, 5] = 1 := by
  constructor
  · simp [distribute, insert_elem, get_deck_pointer, find_deck, qualifies,
      default_compare]
  · decide

/-- C6 (amended): the number of piles equals the length of the longest
non-increasing subsequence of the input, which equals the minimum number of
strictly-increasing runs into which the input can be partitioned. -/
theorem pile_count_minimal {α : Type} (cmp : α → α → Bool) (hswo : SWO cmp)
    (xs : List α) :
    (distribute cmp xs).length = lnis cmp xs ∧
    Partitionable cmp xs (distribute cmp xs).length ∧
    (∀ k, Partitionable cmp xs k → (distribute cmp xs).length ≤ k) :=
  ⟨distribute_length_eq_lnis hswo xs, distribute_partitionable hswo xs,
    distribute_length_min hswo xs⟩

/-- Witness for C6's amended theorem at a concrete input. -/
theorem pile_count_minimal_witness :
    (distribute (@default_compare Nat _) [3, 1, 2]).length
        = lnis (@default_compare Nat _) [3, 1, 2] ∧
    Partitionable (@default_compare Nat _) [3, 1, 2]
        (distribute (@default_compare Nat _) [3, 1, 2]).length ∧
    (∀ k, Partitionable (@default_compare Nat _) [3, 1, 2] k →
        (distribute (@default_compare Nat _) [3, 1, 2]).length ≤ k) :=
  pile_count_minimal _ default_compare_SWO [3, 1, 2]

/-- C7: for every non-empty pile collection the tournament follows the
source's round structure — each round merges adjacent pairs walking from the
end of the collection, an odd round passes exactly the first pile through
unmerged, every round on two or more piles strictly shrinks the count to
`(count+1)/2` — and the recursion ends with exactly one pile, the sorted
merge of everything. -/
theorem merge_tournament_structure {α : Type} (cmp : α → α → Bool)
    (hswo : SWO cmp) (ds : List (List α)) (hne : ds ≠ [])
    (hs : ∀ d ∈ ds, nondecr cmp d) :
    (∀ d rest, ds = d :: rest →
      merge_round cmp ds
        = some (if rest.length % 2 = 0 then d :: pair_merge cmp rest
                else pair_merge cmp (d :: rest))) ∧
    (∀ r, merge_round cmp ds = some r →
      r.length = (ds.length + 1) / 2 ∧
      (2 ≤ ds.length → r.length < ds.length)) ∧
    (∃ out, merge_decks cmp ds = some [out] ∧ out.Perm ds.flatten ∧
      nondecr cmp out) := by
  refine ⟨?_, ?_, ?_⟩
  · intro d rest hds
    subst hds
    exact merge_round_cons cmp d rest
  · intro r hr
    refine ⟨merge_round_some_length cmp ds r hr, ?_⟩
    intro h2
    have := merge_round_some_length cmp ds r hr
    omega
  · exact merge_decks_spec hswo ds.length ds (by omega) hne hs

/-- Witness for C7's theorem at a concrete input. -/
theorem merge_tournament_structure_witness :
    (∀ d rest, ([[1], [2], [3]] : List (List Nat)) = d :: rest →
      merge_round (@default_compare Nat _) [[1], [2], [3]]
        = some (if rest.length % 2 = 0
                then d :: pair_merge (@default_compare Nat _) rest
                else pair_merge (@default_compare Nat _) (d :: rest))) ∧
    (∀ r, merge_round (@default_compare Nat _) [[1], [2], [3]] = some r →
      r.length = (([[1], [2], [3]] : List (List Nat)).length + 1) / 2 ∧
      (2 ≤ ([[1], [2], [3]] : List (List Nat)).length →
        r.length < ([[1], [2], [3]] : List (List Nat)).length)) ∧
    (∃ out, merge_decks (@default_compare Nat _) [[1], [2], [3]]
        = some [out] ∧
      out.Perm ([[1], [2], [3]] : List (List Nat)).flatten ∧
      nondecr (@default_compare Nat _) out) :=
  merge_tournament_structure _ default_compare_SWO [[1], [2], [3]]
    (by simp) (by intro d hd; fin_cases hd <;> simp [nondecr])

/-- C8: sorting is idempotent — a sorted non-empty sequence is returned
unchanged, and composing the sort with itself equals a single sort on every
input. -/
theorem sort_idempotent_claim {α : Type} (cmp : α → α → Bool)
    (hswo : SWO cmp) :
    (∀ T : List α, T ≠ [] → nondecr cmp T → patience_sort cmp T = some T) ∧
    (∀ S : List α, (patience_sort cmp S).bind (patience_sort cmp)
      = patience_sort cmp S) :=
  ⟨fun T hne hs => sort_of_sorted hswo T hne hs, fun S => sort_sort hswo S⟩

/-- Witness for C8's theorem at a concrete comparator. -/
theorem sort_idempotent_claim_witness :
    (∀ T : List Nat, T ≠ [] → nondecr (@default_compare Nat _) T →
      patience_sort (@default_compare Nat _) T = some T) ∧
    (∀ S : List Nat,
      (patience_sort (@default_compare Nat _) S).bind
          (patience_sort (@default_compare Nat _))
        = patience_sort (@default_compare Nat _) S) :=
  sort_idempotent_claim _ default_compare_SWO

/-- C9: in every state the distribution pass can reach, every pile is
non-empty — reading a pile's extremum is always defined — and a newly
allocated pile receives its first element immediately: when the search
signals no qualifying deck, insertion appends a singleton deck. -/
theorem piles_nonempty_alloc {α : Type} (cmp : α → α → Bool) (xs : List α) :
    (∀ n, ∀ d ∈ distribute cmp (xs.take n), d.getLast?.isSome) ∧
    (∀ (decks : List (List α)) (val : α),
      find_deck cmp decks val 0 decks.length = decks.length →
      insert_elem cmp decks val = decks ++ [[val]]) := by
  constructor
  · intro n d hd
    exact List.getLast?_isSome.mpr (distribute_all_nonempty cmp (xs.take n) d hd)
  · intro decks val hfe
    exact insert_elem_eq_new hfe

/-- Witness for C9's theorem at a concrete input. -/
theorem piles_nonempty_alloc_witness :
    (([2] : List Nat).getLast?.isSome) ∧
    insert_elem (@default_compare Nat _) [[5]] 3 = [[5]] ++ [[3]] := by
  constructor
  · refine (piles_nonempty_alloc (@default_compare Nat _) [2, 1]).1 1 [2] ?_
    simp [distribute, insert_elem, get_deck_pointer, find_deck, qualifies,
      default_compare]
  · refine (piles_nonempty_alloc (@default_compare Nat _) [2, 1]).2 [[5]] 3 ?_
    simp [find_deck, qualifies, default_compare]

/-- C10: after every insertion the pile extrema read in collection order
are non-increasing under the comparator; a newly created pile's single
element is not strictly above any existing extremum; and when the binary
search finds a qualifying deck it returns the one with the largest
extremum among those strictly below the new element. -/
theorem descending_extrema_search {α : Type} (cmp : α → α → Bool)
    (hswo : SWO cmp) (xs : List α) :
    (∀ n, List.Chain' (fun a b => cmp a b = false)
      (extrema (distribute cmp (xs.take n)))) ∧
    (∀ val, (get_deck_pointer cmp (distribute cmp xs) val).1
        = (distribute cmp xs).length →
      ∀ j y, j < (distribute cmp xs).length →
        ((distribute cmp xs).getD j []).getLast? = some y →
        cmp y val = false) ∧
    (∀ val i, (get_deck_pointer cmp (distribute cmp xs) val).1 = i →
      i < (distribute cmp xs).length →
      ∃ x, ((distribute cmp xs).getD i []).getLast? = some x ∧
        cmp x val = true ∧
        ∀ j y, j < (distribute cmp xs).length →
          ((distribute cmp xs).getD j []).getLast? = some y →
          cmp y val = true → cmp x y = false) := by
  refine ⟨fun n => distribute_extrema_chain hswo (xs.take n), ?_, ?_⟩
  · intro val hlen j y hj hy
    rcases get_deck_pointer_spec hswo (distribute_DInv hswo xs) val with
      ⟨i, x, hi, _, hilt, _, _, _, _⟩ | ⟨hnone, _, _, _⟩
    · rw [hi] at hlen
      omega
    · exact hnone j y hj hy
  · intro val i hi hilt
    rcases get_deck_pointer_spec hswo (distribute_DInv hswo xs) val with
      ⟨i', x, hi', _, hilt', hx, hq, hlargest, _⟩ | ⟨_, hlen, _, _⟩
    · rw [hi] at hi'
      subst hi'
      exact ⟨x, hx, hq, hlargest⟩
    · rw [hi] at hlen
      omega

/-- Witness for C10's theorem at a concrete input. -/
theorem descending_extrema_search_witness :
    (∀ n, List.Chain' (fun a b => default_compare a b = false)
      (extrema (distribute (@default_compare Nat _) ([2, 1].take n)))) ∧
    (∀ val, (get_deck_pointer (@default_compare Nat _)
        (distribute (@default_compare Nat _) [2, 1]) val).1
        = (distribute (@default_compare Nat _) [2, 1]).length →
      ∀ j y, j < (distribute (@default_compare Nat _) [2, 1]).length →
        ((distribute (@default_compare Nat _) [2, 1]).getD j []).getLast?
          = some y →
        default_compare y val = false) ∧
    (∀ val i, (get_deck_pointer (@default_compare Nat _)
        (distribute (@default_compare Nat _) [2, 1]) val).1 = i →
      i < (distribute (@default_compare Nat _) [2, 1]).length →
      ∃ x, ((distribute (@default_compare Nat _) [2, 1]).getD i []).getLast?
          = some x ∧
        default_compare x val = true ∧
        ∀ j y, j < (distribute (@default_compare Nat _) [2, 1]).length →
          ((distribute (@default_compare Nat _) [2, 1]).getD j []).getLast?
            = some y →
          default_compare y val = true → default_compare x y = false) :=
  descending_extrema_search _ default_compare_SWO [2, 1]

end Patience
